import Mathlib

/-!
Shallow embedding of the tispace controller (tispace-dev/tispace) and proofs
about its admission handlers, scheduler, collector, storage layer and
reconcilers.  Definitions are translated from the Rust sources in `src/`:
`model.rs`, `service.rs`, `scheduler.rs`, `collector.rs`, `storage.rs`,
`operator_k8s.rs` and `operator_lxd.rs`.

Machine integers (`usize`) are modelled as `Nat`; where the Rust code performs
unsigned subtraction whose underflow behaviour matters (the scheduler's
tie-break and pool-selection expressions) we use explicit wrap-around
subtraction modulo 2^64 (`wsub`), matching the release-mode semantics of Rust.
Randomness (password generation, IP-pool shuffling) is modelled by passing the
generated value / the shuffled pool as a parameter.  Asynchronous I/O results
(LXD and Kubernetes API responses, persistence success) are parameters of the
functions that consume them.
-/

namespace TiSpace

/-! ## model.rs -/

/-- `InstanceStage` from model.rs: the desired state of an instance. -/
inductive InstanceStage where
  | Stopped
  | Running
  | Deleted
deriving DecidableEq, Repr

/-- `InstanceStatus` from model.rs: the observed state of an instance. -/
inductive InstanceStatus where
  | Creating
  | Starting
  | Running
  | Stopping
  | Stopped
  | Deleting
  | Missing
  | Error (msg : String)
deriving DecidableEq, Repr

/-- `Runtime` from model.rs. -/
inductive Runtime where
  | Kata
  | Runc
  | Lxc
  | Kvm
deriving DecidableEq, Repr

/-- `Image` from model.rs. -/
inductive Image where
  | CentOS7
  | CentOS8
  | CentOS9Stream
  | Ubuntu2004
  | Ubuntu2204
deriving DecidableEq, Repr

/-- `Runtime::supported_images` from model.rs. -/
def Runtime.supported_images : Runtime → List Image
  | .Kata => []
  | .Runc => []
  | .Lxc => [.CentOS7, .CentOS9Stream, .Ubuntu2004, .Ubuntu2204]
  | .Kvm => [.CentOS7, .CentOS9Stream, .Ubuntu2004, .Ubuntu2204]

/-- `Runtime::compatiable_with` from model.rs (sic): same runtime, or kata↔runc. -/
def Runtime.compatiable_with (a b : Runtime) : Bool :=
  if a = b then true
  else
    match a, b with
    | .Kata, .Runc => true
    | .Runc, .Kata => true
    | _, _ => false

/-- `Runtime::from_str` from model.rs (after `to_lowercase`). -/
def Runtime.fromStr (s : String) : Option Runtime :=
  match s.toLower with
  | "kata" => some .Kata
  | "runc" => some .Runc
  | "lxc" => some .Lxc
  | "kvm" => some .Kvm
  | _ => none

/-- `Image::from_str` from model.rs (after `to_lowercase`). -/
def Image.fromStr (s : String) : Option Image :=
  let lower := s.toLower
  if lower.startsWith "tispace/centos7:" then some .CentOS7
  else if lower.startsWith "tispace/centos8:" then some .CentOS8
  else if lower.startsWith "tispace/centos9-stream:" then some .CentOS9Stream
  else if lower.startsWith "tispace/ubuntu2004:" then some .Ubuntu2004
  else
    match lower with
    | "tispace/centos7" | "centos7" | "centos:7" => some .CentOS7
    | "tispace/centos8" | "centos8" | "centos:8" => some .CentOS8
    | "tispace/centos9-stream" | "centos9-stream" | "centos:9-stream" => some .CentOS9Stream
    | "tispace/ubuntu2004" | "ubuntu2004" | "ubuntu:20.04" => some .Ubuntu2004
    | "ubuntu2204" | "ubuntu:22.04" => some .Ubuntu2204
    | _ => none

/-- `Instance` from model.rs. -/
structure Instance where
  name : String
  cpu : Nat
  memory : Nat
  disk_size : Nat
  image : Image
  hostname : String
  ssh_host : Option String
  ssh_port : Option Int
  password : String
  stage : InstanceStage
  status : InstanceStatus
  internal_ip : Option String
  external_ip : Option String
  runtime : Runtime
  node_name : Option String
  storage_pool : Option String
deriving DecidableEq, Repr

/-- `User` from model.rs. -/
structure User where
  username : String
  cpu_quota : Nat
  memory_quota : Nat
  disk_quota : Nat
  instance_quota : Nat
  instances : List Instance
deriving DecidableEq, Repr

/-- `StoragePool` from model.rs. -/
structure StoragePool where
  name : String
  total : Nat
  used : Nat
  allocated : Nat
deriving DecidableEq, Repr

/-- `Node` from model.rs. -/
structure Node where
  name : String
  storage_pools : List StoragePool
  runtimes : List Runtime
  cpu_total : Nat
  cpu_allocated : Nat
  memory_total : Nat
  memory_allocated : Nat
  storage_total : Nat
  storage_used : Nat
  storage_allocated : Nat
deriving DecidableEq, Repr

/-- `State` from model.rs. -/
structure State where
  users : List User
  nodes : List Node
deriving DecidableEq, Repr

/-- `User::find_instance` from model.rs: first instance with the given name. -/
def User.find_instance (u : User) (name : String) : Option Instance :=
  u.instances.find? (fun i => i.name = name)

/-- `User::remove_instance` from model.rs: remove the first instance with the
given name (no-op when absent). -/
def User.remove_instance (u : User) (name : String) : User :=
  { u with instances :=
      match u.instances.findIdx? (fun i => i.name = name) with
      | some idx => u.instances.eraseIdx idx
      | none => u.instances }

/-- `State::find_user` from model.rs: first user with the given username. -/
def State.find_user (s : State) (username : String) : Option User :=
  s.users.find? (fun u => u.username = username)

/-- In-place mutation of the first element satisfying `p` (how
`iter_mut().find(..)` followed by a mutation acts on a `Vec`). -/
def modifyFirst (p : α → Bool) (f : α → α) : List α → List α
  | [] => []
  | x :: xs => if p x then f x :: xs else x :: modifyFirst p f xs

/-- `find_mut_user(..)` followed by in-place mutation of the found user is
modelled by rewriting the first user whose name matches. -/
def State.modify_user (s : State) (username : String) (f : User → User) : State :=
  { s with users := modifyFirst (fun u => u.username = username) f s.users }

/-- `find_mut_instance(..)` followed by in-place mutation of the found instance
is modelled by rewriting the first instance whose name matches. -/
def User.modify_instance (u : User) (name : String) (f : Instance → Instance) : User :=
  { u with instances := modifyFirst (fun i => i.name = name) f u.instances }

/-! ### `State::sync_allocated_resources` (model.rs)

The Rust code accumulates `HashMap`s keyed by node name (resp. `(node name,
pool name)`) by iterating over every instance with `entry(..).or_default() +=`,
then assigns the looked-up totals (`unwrap_or_default`) to every node and
pool.  A `HashMap<K, usize>` whose entries are only ever accumulated into is
modelled as a function `K → Nat` that is zero outside the inserted keys. -/

/-- `*map.entry(k).or_default() += v` on a `HashMap<String, usize>`. -/
def accumEntry (m : String → Nat) (k : String) (v : Nat) : String → Nat :=
  fun k' => if k' = k then m k' + v else m k'

/-- `*map.entry((k1,k2)).or_default() += v` on a `HashMap<(String,String), usize>`. -/
def accumEntry2 (m : String × String → Nat) (k : String × String) (v : Nat) :
    String × String → Nat :=
  fun k' => if k' = k then m k' + v else m k'

/-- The per-instance body of the accumulation loop of
`sync_allocated_resources`. -/
def syncStep
    (maps : (String → Nat) × (String → Nat) × (String × String → Nat) × (String → Nat))
    (i : Instance) :
    (String → Nat) × (String → Nat) × (String × String → Nat) × (String → Nat) :=
  let (cpuA, memA, poolA, nodeStorA) := maps
  match i.node_name with
  | some node_name =>
    let cpuA := accumEntry cpuA node_name i.cpu
    let memA := accumEntry memA node_name i.memory
    let poolA :=
      match i.storage_pool with
      | some storage_pool => accumEntry2 poolA (node_name, storage_pool) i.disk_size
      | none => poolA
    let nodeStorA := accumEntry nodeStorA node_name i.disk_size
    (cpuA, memA, poolA, nodeStorA)
  | none => maps

/-- The accumulation loop of `sync_allocated_resources`: fold over all
instances of all users, building the four maps. -/
def syncMaps (s : State) :
    (String → Nat) × (String → Nat) × (String × String → Nat) × (String → Nat) :=
  s.users.foldl
    (fun maps u => u.instances.foldl syncStep maps)
    (fun _ => 0, fun _ => 0, fun _ => 0, fun _ => 0)

/-- `State::sync_allocated_resources` from model.rs.  The four maps are the
components of `syncMaps`: cpu, memory, per-pool and per-node storage. -/
def State.sync_allocated_resources (s : State) : State :=
  let maps := syncMaps s
  { s with nodes := s.nodes.map (fun node =>
      { node with
        cpu_allocated := maps.1 node.name
        memory_allocated := maps.2.1 node.name
        storage_allocated := maps.2.2.2 node.name
        storage_pools := node.storage_pools.map (fun p =>
          { p with allocated := maps.2.2.1 (node.name, p.name) }) }) }

/-! ## service.rs

The request/response DTO shapes and the `InstanceError` variants are taken
from their construction and use inside `service.rs` (the checked-in `dto.rs`
and `error.rs` predate `service.rs` and lack several of the fields/variants it
uses).  Randomly generated passwords are passed in as a parameter.  The
`read_write` persistence layer mutates the guarded state in place (see
storage.rs below), so the state effect of a handler is the closure's effect
whether or not the commit flag is set; persistence failure only changes the
HTTP result, which none of the claims about the handlers depends on. -/

/-- `fmt::Display for Image` from model.rs. -/
def Image.display : Image → String
  | .CentOS7 => "centos:7"
  | .CentOS8 => "centos:8"
  | .CentOS9Stream => "centos:9-Stream"
  | .Ubuntu2004 => "ubuntu:20.04"
  | .Ubuntu2204 => "ubuntu:22.04"

/-- `fmt::Display for Runtime` from model.rs. -/
def Runtime.display : Runtime → String
  | .Kata => "kata"
  | .Runc => "runc"
  | .Lxc => "lxc"
  | .Kvm => "kvm"

/-- `InstanceError` as constructed by service.rs (variants and payloads as
used there; the HTTP status mapping is external to the claims). -/
inductive InstanceError where
  | InvalidArgs (field : String)
  | AlreadyExists
  | AlreadyDeleted
  | NotYetStopped
  | QuotaExceeded (resource : String) (quota remaining requested : Nat) (unit : String)
  | CreateFailed
  | DeleteFailed
  | UpdateFailed
  | StartFailed
  | StopFailed
  | ImageUnavailable (image runtime : String)
  | StoragePoolCannotBeSpecified (runtime : String)
  | UnknownNode (node : String)
  | UnknownStoragePool (pool : String)
  | ResourceExhausted
  | RuntimeIncompatible (current target : String)
deriving DecidableEq, Repr

/-- `CreateInstanceRequest` as read by `create_instance` in service.rs
(string fields use `""` for "not specified", matching `is_empty()`). -/
structure CreateInstanceRequest where
  name : String
  cpu : Nat
  memory : Nat
  disk_size : Nat
  image : String
  runtime : String
  node_name : String
  storage_pool : String
deriving DecidableEq, Repr

/-- `UpdateInstanceRequest` as read by `update_instance` in service.rs. -/
structure UpdateInstanceRequest where
  cpu : Option Nat
  memory : Option Nat
  runtime : Option String
deriving DecidableEq, Repr

/-- Wrap-around subtraction of 64-bit unsigned integers: Rust release-mode
semantics of `a - b` on `usize`.  Used where the source may underflow. -/
def wsub (a b : Nat) : Nat := (a % 2 ^ 64 + (2 ^ 64 - b % 2 ^ 64)) % 2 ^ 64

/-- `'a' ..= 'z'` head character of the instance-name regex. -/
def isNameHead (c : Char) : Bool := 'a' ≤ c && c ≤ 'z'

/-- `[a-z0-9]`, the final character class of the instance-name regex. -/
def isNameTail (c : Char) : Bool := isNameHead c || ('0' ≤ c && c ≤ '9')

/-- `[-a-z0-9]`, the middle character class of the instance-name regex. -/
def isNameMid (c : Char) : Bool := c = '-' || isNameTail c

/-- `verify_instance_name` from service.rs: match against
`^[a-z]([-a-z0-9]{0,61}[a-z0-9])?$`. -/
def verify_instance_name (name : String) : Bool :=
  match name.toList with
  | [] => false
  | c :: rest =>
    isNameHead c &&
    (match rest.getLast? with
     | none => true
     | some lastc => decide (rest.length ≤ 62) && isNameTail lastc && rest.dropLast.all isNameMid)

/-- The `true` path of the `state.nodes.iter().any(..)` closure in
`create_instance`: the node passes the pinned-name filter, the pinned-pool
existence filter, the three node-level capacity checks and has a pool that
passes the pool-level capacity check. -/
def nodeFitsCreate (req : CreateInstanceRequest) (n : Node) : Bool :=
  (req.node_name = "" || req.node_name = n.name) &&
  (req.storage_pool = "" || n.storage_pools.any (fun p => p.name = req.storage_pool)) &&
  !(req.cpu + n.cpu_allocated > n.cpu_total) &&
  !(req.memory + n.memory_allocated > n.memory_total) &&
  !(req.disk_size + max n.storage_allocated n.storage_used > n.storage_total) &&
  n.storage_pools.any (fun p =>
    (req.storage_pool = "" || req.storage_pool = p.name) &&
    !(req.disk_size + max p.allocated p.used > p.total))

/-- Value of the `node_exists` flag after a full (failing) scan in
`create_instance`: some node passed the pinned-name filter. -/
def createNodeExists (req : CreateInstanceRequest) (s : State) : Bool :=
  s.nodes.any (fun n => req.node_name = "" || req.node_name = n.name)

/-- Value of the `storage_pool_exists` flag after a full (failing) scan in
`create_instance`: some node passed both the pinned-name and pinned-pool
filters. -/
def createStoragePoolExists (req : CreateInstanceRequest) (s : State) : Bool :=
  s.nodes.any (fun n =>
    (req.node_name = "" || req.node_name = n.name) &&
    (req.storage_pool = "" || n.storage_pools.any (fun p => p.name = req.storage_pool)))

/-- The request validation performed by `create_instance` before entering the
store's critical section. -/
def createValidate (req : CreateInstanceRequest) : Except InstanceError (Image × Runtime) :=
  if !verify_instance_name req.name then .error (.InvalidArgs "name")
  else if req.cpu = 0 then .error (.InvalidArgs "cpu")
  else if req.memory = 0 then .error (.InvalidArgs "memory")
  else if req.disk_size = 0 then .error (.InvalidArgs "disk_size")
  else if req.image = "" then .error (.InvalidArgs "image")
  else if req.runtime = "" then .error (.InvalidArgs "runtime")
  else
    match Image.fromStr req.image with
    | none => .error (.InvalidArgs "image")
    | some image =>
      match Runtime.fromStr req.runtime with
      | none => .error (.InvalidArgs "runtime")
      | some runtime =>
        if !(runtime.supported_images.contains image) then
          .error (.ImageUnavailable image.display runtime.display)
        else if req.storage_pool ≠ "" && (runtime = .Kata || runtime = .Runc) then
          .error (.StoragePoolCannotBeSpecified runtime.display)
        else .ok (image, runtime)

/-- The `Instance` pushed by `create_instance` on success. -/
def newInstance (password : String) (req : CreateInstanceRequest)
    (image : Image) (runtime : Runtime) : Instance :=
  { name := req.name
    image := image
    cpu := req.cpu
    memory := req.memory
    disk_size := req.disk_size
    stage := .Running
    hostname := req.name
    ssh_host := none
    ssh_port := none
    password := password
    status := .Creating
    internal_ip := none
    external_ip := none
    runtime := runtime
    node_name := if req.node_name = "" then none else some req.node_name
    storage_pool := if req.storage_pool = "" then none else some req.storage_pool }

/-- The `read_write` closure of `create_instance`: returns the state after the
closure ran (it mutates the guarded state in place), the commit flag, and the
`user_err` captured by the handler. -/
def createClosure (username password : String) (req : CreateInstanceRequest)
    (image : Image) (runtime : Runtime) (s : State) :
    State × Bool × Option InstanceError :=
  if !(s.nodes.any (nodeFitsCreate req)) then
    let err : InstanceError :=
      if req.node_name ≠ "" && !createNodeExists req s then .UnknownNode req.node_name
      else if req.storage_pool ≠ "" && !createStoragePoolExists req s then
        .UnknownStoragePool req.storage_pool
      else .ResourceExhausted
    (s, false, some err)
  else
    match s.find_user username with
    | none => (s, false, none)
    | some u =>
      if u.instances.length + 1 > u.instance_quota then
        (s, false, some (.QuotaExceeded "Instance" u.instance_quota
          (wsub u.instance_quota u.instances.length) 1 ""))
      else if u.instances.any (fun i => i.name = req.name) then
        (s, false, some .AlreadyExists)
      else
        let total_cpu := (u.instances.map (·.cpu)).sum
        let total_memory := (u.instances.map (·.memory)).sum
        let total_disk_size := (u.instances.map (·.disk_size)).sum
        if total_cpu + req.cpu > u.cpu_quota then
          (s, false, some (.QuotaExceeded "CPU" u.cpu_quota
            (wsub u.cpu_quota total_cpu) req.cpu "C"))
        else if total_memory + req.memory > u.memory_quota then
          (s, false, some (.QuotaExceeded "Memory" u.memory_quota
            (wsub u.memory_quota total_memory) req.memory "GiB"))
        else if total_disk_size + req.disk_size > u.disk_quota then
          (s, false, some (.QuotaExceeded "Disk size" u.disk_quota
            (wsub u.disk_quota total_disk_size) req.disk_size "GiB"))
        else
          (s.modify_user username (fun u' =>
            { u' with instances :=
                u'.instances ++ [newInstance password req image runtime] }),
           true, none)

/-- The `create_instance` handler (validation, then the critical section);
result is the state and the error returned to the client (`none` = 201). -/
def create_instance (username password : String) (req : CreateInstanceRequest)
    (s : State) : State × Option InstanceError :=
  match createValidate req with
  | .error e => (s, some e)
  | .ok (image, runtime) =>
    let r := createClosure username password req image runtime s
    (r.1, r.2.2)

/-- Runtime-update step of the `update_instance` closure.  `commit i` is the
state after the in-place writes recorded in `i` (the `instance.cpu = ..` /
`instance.memory = ..` assignments already performed). -/
def updateRuntimeStep (commit : Instance → State) (i : Instance)
    (req : UpdateInstanceRequest) : State × Bool × Option InstanceError :=
  match req.runtime with
  | none => (commit i, true, none)
  | some rs =>
    match Runtime.fromStr rs with
    | some rt =>
      if i.runtime.compatiable_with rt then
        (commit { i with runtime := rt }, true, none)
      else
        (commit i, false, some (.RuntimeIncompatible i.runtime.display rt.display))
    | none =>
      -- Unreachable from the handler (the runtime string was validated before
      -- the critical section); the Rust code `unwrap()`s here.
      (commit i, false, none)

/-- Memory-update step of the `update_instance` closure. -/
def updateMemoryStep (commit : Instance → State) (total_memory memory_quota : Nat)
    (i : Instance) (req : UpdateInstanceRequest) : State × Bool × Option InstanceError :=
  match req.memory with
  | some m =>
    if total_memory + m > memory_quota then
      (commit i, false, some (.QuotaExceeded "Memory" memory_quota
        (wsub memory_quota total_memory) m "GiB"))
    else updateRuntimeStep commit { i with memory := m } req
  | none => updateRuntimeStep commit i req

/-- The `read_write` closure of `update_instance`. -/
def updateClosure (username instance_name : String) (req : UpdateInstanceRequest)
    (s : State) : State × Bool × Option InstanceError :=
  match s.find_user username with
  | none => (s, false, none)
  | some u =>
    let total_cpu := ((u.instances.filter (fun i => i.name ≠ instance_name)).map (·.cpu)).sum
    let total_memory := ((u.instances.filter (fun i => i.name ≠ instance_name)).map (·.memory)).sum
    match u.find_instance instance_name with
    | none => (s, false, none)
    | some inst =>
      if inst.stage = .Deleted then (s, false, some .AlreadyDeleted)
      else if inst.status ≠ .Stopped then (s, false, some .NotYetStopped)
      else
        -- Field assignments mutate the found instance in place; each exit
        -- point commits the writes performed so far.
        let commit : Instance → State := fun i' =>
          s.modify_user username (fun u' => u'.modify_instance instance_name (fun _ => i'))
        match req.cpu with
        | some c =>
          if total_cpu + c > u.cpu_quota then
            (s, false, some (.QuotaExceeded "CPU" u.cpu_quota
              (wsub u.cpu_quota total_cpu) c "C"))
          else updateMemoryStep commit total_memory u.memory_quota { inst with cpu := c } req
        | none => updateMemoryStep commit total_memory u.memory_quota inst req

/-- The `update_instance` handler (validation, then the critical section). -/
def update_instance (username instance_name : String) (req : UpdateInstanceRequest)
    (s : State) : State × Option InstanceError :=
  if req.cpu = some 0 then (s, some (.InvalidArgs "cpu"))
  else if req.memory = some 0 then (s, some (.InvalidArgs "memory"))
  else
    match req.runtime with
    | some rs =>
      match Runtime.fromStr rs with
      | none => (s, some (.InvalidArgs rs))
      | some _ =>
        let r := updateClosure username instance_name req s
        (r.1, r.2.2)
    | none =>
      let r := updateClosure username instance_name req s
      (r.1, r.2.2)

/-- The `start_instance` handler (its closure plus `user_err`). -/
def start_instance (username instance_name : String) (s : State) :
    State × Option InstanceError :=
  match (s.find_user username).bind (fun u => u.find_instance instance_name) with
  | some inst =>
    if inst.stage = .Deleted then (s, some .AlreadyDeleted)
    else if inst.stage ≠ .Running then
      (s.modify_user username (fun u => u.modify_instance instance_name (fun i =>
        { i with stage := .Running, status := .Starting })), none)
    else (s, none)
  | none => (s, none)

/-- The `stop_instance` handler (its closure plus `user_err`). -/
def stop_instance (username instance_name : String) (s : State) :
    State × Option InstanceError :=
  match (s.find_user username).bind (fun u => u.find_instance instance_name) with
  | some inst =>
    if inst.stage = .Deleted then (s, some .AlreadyDeleted)
    else if inst.stage ≠ .Stopped then
      (s.modify_user username (fun u => u.modify_instance instance_name (fun i =>
        { i with stage := .Stopped, status := .Stopping })), none)
    else (s, none)
  | none => (s, none)

/-- The `delete_instance` handler: mark the instance `Deleted` and set its
status by runtime; no-op when absent or already deleted. -/
def delete_instance (username instance_name : String) (s : State) :
    State × Option InstanceError :=
  match (s.find_user username).bind (fun u => u.find_instance instance_name) with
  | some inst =>
    if inst.stage ≠ .Deleted then
      (s.modify_user username (fun u => u.modify_instance instance_name (fun i =>
        { i with
          stage := .Deleted
          status := match i.runtime with
            | .Kata | .Runc => .Deleting
            | .Lxc | .Kvm => .Stopping })), none)
    else (s, none)
  | none => (s, none)

/-- An admission operation: one call to a mutating service.rs handler,
with the authenticated username (and, for create, the generated password). -/
inductive AdmissionOp where
  | create (username password : String) (req : CreateInstanceRequest)
  | update (username instance_name : String) (req : UpdateInstanceRequest)
  | start (username instance_name : String)
  | stop (username instance_name : String)
  | delete (username instance_name : String)

/-- Run one admission operation. -/
def applyAdmission : AdmissionOp → State → State × Option InstanceError
  | .create username password req, s => create_instance username password req s
  | .update username instance_name req, s => update_instance username instance_name req s
  | .start username instance_name, s => start_instance username instance_name s
  | .stop username instance_name, s => stop_instance username instance_name s
  | .delete username instance_name, s => delete_instance username instance_name s

/-- Run a sequence of admission operations, keeping only the state. -/
def applyAdmissionSeq (ops : List AdmissionOp) (s : State) : State :=
  ops.foldl (fun s op => (applyAdmission op s).1) s

/-- Sum of `cpu` over a user's instances. -/
def User.cpuSum (u : User) : Nat := (u.instances.map (·.cpu)).sum

/-- Sum of `memory` over a user's instances. -/
def User.memorySum (u : User) : Nat := (u.instances.map (·.memory)).sum

/-- Sum of `disk_size` over a user's instances. -/
def User.diskSum (u : User) : Nat := (u.instances.map (·.disk_size)).sum

/-- A user is within quota: instance count and the three resource sums do not
exceed the corresponding quotas. -/
def User.withinQuota (u : User) : Prop :=
  u.instances.length ≤ u.instance_quota ∧
  u.cpuSum ≤ u.cpu_quota ∧
  u.memorySum ≤ u.memory_quota ∧
  u.diskSum ≤ u.disk_quota

instance (u : User) : Decidable u.withinQuota := by
  unfold User.withinQuota; infer_instance

/-- Every user of the state is within quota. -/
def State.withinQuota (s : State) : Prop := ∀ u ∈ s.users, u.withinQuota

instance (s : State) : Decidable s.withinQuota := by
  unfold State.withinQuota; infer_instance

/-- Instance names are unique within a user. -/
def User.namesUnique (u : User) : Prop := (u.instances.map (·.name)).Nodup

instance (u : User) : Decidable u.namesUnique := by
  unfold User.namesUnique; infer_instance

/-- Instance names are unique within every user of the state. -/
def State.namesUnique (s : State) : Prop := ∀ u ∈ s.users, u.namesUnique

instance (s : State) : Decidable s.namesUnique := by
  unfold State.namesUnique; infer_instance

/-- The error is a `QuotaExceeded` rejection. -/
def isQuotaExceeded : Option InstanceError → Prop
  | some (.QuotaExceeded _ _ _ _ _) => True
  | _ => False

instance (e : Option InstanceError) : Decidable (isQuotaExceeded e) := by
  unfold isQuotaExceeded
  cases e with
  | none => exact inferInstanceAs (Decidable False)
  | some err => cases err <;> simp <;> infer_instance

/-! ## scheduler.rs

`run_once` takes a single `read_write` in which it runs `allocate_ip` and then
`schedule`.  The shuffled copy of `EXTERNAL_IP_POOL` is passed in as the
`pool` parameter (shuffling permutes the configured pool). -/

/-- All currently assigned external IPs (`allocated_ips` in `allocate_ip`,
collected over every instance of every user). -/
def ipsOf (s : State) : List String :=
  s.users.flatMap (fun u => u.instances.filterMap (·.external_ip))

/-- IP assignment over one user's instance list.  Returns the rewritten list,
the updated allocated set, and whether the pool was exhausted (in Rust the
`return` aborts the whole pass). -/
def allocInstances (pool : List String) :
    List Instance → List String → List Instance × List String × Bool
  | [], allocated => ([], allocated, false)
  | i :: rest, allocated =>
    if (i.runtime = .Lxc || i.runtime = .Kvm) && i.external_ip.isNone then
      match pool.find? (fun ip => !allocated.contains ip) with
      | some ip =>
        let r := allocInstances pool rest (ip :: allocated)
        ({ i with external_ip := some ip } :: r.1, r.2)
      | none => (i :: rest, allocated, true)
    else
      let r := allocInstances pool rest allocated
      (i :: r.1, r.2)

/-- IP assignment over the user list, aborting once the pool is exhausted. -/
def allocUsers (pool : List String) :
    List User → List String → List User × List String × Bool
  | [], allocated => ([], allocated, false)
  | u :: rest, allocated =>
    let r := allocInstances pool u.instances allocated
    if r.2.2 then ({ u with instances := r.1 } :: rest, r.2.1, true)
    else
      let r' := allocUsers pool rest r.2.1
      ({ u with instances := r.1 } :: r'.1, r'.2)

/-- `Scheduler::allocate_ip` from scheduler.rs, with the shuffled pool passed
in as `pool`. -/
def Scheduler.allocate_ip (pool : List String) (s : State) : State :=
  { s with users := (allocUsers pool s.users (ipsOf s)).1 }

/-- The pending-instance filter of `Scheduler::schedule`: `status == Creating`
and, per runtime family, placement still missing (for lxc/kvm the external IP
must already be assigned). -/
def instancePending (i : Instance) : Bool :=
  i.status = .Creating &&
  (match i.runtime with
   | .Lxc | .Kvm => i.external_ip.isSome && (i.node_name.isNone || i.storage_pool.isNone)
   | .Runc | .Kata => i.node_name.isNone)

/-- The pinned-pool filter applied to a storage pool inside `schedule`. -/
def poolPinMatch (i : Instance) (p : StoragePool) : Bool :=
  match i.storage_pool with
  | some sp => sp = p.name
  | none => true

/-- The node eligibility filter of `Scheduler::schedule` (candidate loop body
up to the tie-break). -/
def nodeEligible (i : Instance) (n : Node) : Bool :=
  (match i.node_name with
   | some nm => nm = n.name
   | none => true) &&
  n.runtimes.contains i.runtime &&
  !(i.cpu + n.cpu_allocated > n.cpu_total ||
    i.memory + n.memory_allocated > n.memory_total ||
    i.disk_size + n.storage_allocated > n.storage_total ||
    i.disk_size + n.storage_used > n.storage_total) &&
  n.storage_pools.any (fun p =>
    poolPinMatch i p && decide (max p.allocated p.used + i.disk_size ≤ p.total))

/-- The tie-break of `Scheduler::schedule`: `n` displaces the incumbent `bn`
iff it is strictly greater on the first non-equal key of
(cpu headroom, memory headroom, storage headroom).  The `usize` subtractions
are wrap-around (`wsub`). -/
def nodeBetter (n bn : Node) : Bool :=
  let a := wsub n.cpu_total n.cpu_allocated
  let a' := wsub bn.cpu_total bn.cpu_allocated
  let b := wsub n.memory_total n.memory_allocated
  let b' := wsub bn.memory_total bn.memory_allocated
  let c := wsub n.storage_total (max n.storage_allocated n.storage_used)
  let c' := wsub bn.storage_total (max bn.storage_allocated bn.storage_used)
  decide (a > a') || (decide (a = a') && decide (b > b')) ||
    (decide (a = a') && decide (b = b') && decide (c > c'))

/-- Loop body of the best-node search: an eligible candidate becomes the
incumbent when there is none, or displaces it when `nodeBetter`. -/
def pickBestNodeStep (i : Instance) (best : Option (Nat × Node)) (x : Nat × Node) :
    Option (Nat × Node) :=
  if nodeEligible i x.2 then
    match best with
    | none => some x
    | some b => if nodeBetter x.2 b.2 then some x else best
  else best

/-- The best-node loop of `Scheduler::schedule`: first eligible node becomes
the incumbent; a later eligible node displaces it iff `nodeBetter`.  Returns
the index (for the in-place update) and the node. -/
def pickBestNode (i : Instance) (nodes : List Node) : Option (Nat × Node) :=
  nodes.enum.foldl (pickBestNodeStep i) none

/-- Loop body of the best-pool search on the chosen node. -/
def pickBestPoolStep (i : Instance) (best : Option (Nat × StoragePool))
    (x : Nat × StoragePool) : Option (Nat × StoragePool) :=
  if poolPinMatch i x.2 then
    match best with
    | none => some x
    | some b =>
      if wsub x.2.total (max x.2.allocated x.2.used) >
          wsub b.2.total (max b.2.allocated b.2.used) then
        some x
      else best
  else best

/-- The best-pool loop of `Scheduler::schedule` on the chosen node: among the
pools passing the pinned-pool filter, keep the one with the strictly largest
`total - max(allocated, used)` (wrap-around subtraction), first wins ties. -/
def pickBestPool (i : Instance) (pools : List StoragePool) : Option (Nat × StoragePool) :=
  pools.enum.foldl (pickBestPoolStep i) none

/-- Placement of a single collected instance: choose node and pool, bump the
allocated counters in the working node list, and record the placement on the
instance. -/
def scheduleStep (nodes : List Node) (i : Instance) : List Node × Instance :=
  if !instancePending i then (nodes, i)
  else
    match pickBestNode i nodes with
    | none => (nodes, i)
    | some (nidx, n) =>
      match pickBestPool i n.storage_pools with
      | none =>
        -- Unreachable when the node passed `nodeEligible` (which requires a
        -- pin-matching pool); the Rust code `unwrap()`s here.
        (nodes, i)
      | some (pidx, p) =>
        let p' := { p with allocated := p.allocated + i.disk_size }
        let n' := { n with
          storage_pools := n.storage_pools.set pidx p'
          cpu_allocated := n.cpu_allocated + i.cpu
          memory_allocated := n.memory_allocated + i.memory
          storage_allocated := n.storage_allocated + i.disk_size }
        let i' := { i with
          node_name := some n.name
          storage_pool :=
            match i.runtime with
            | .Lxc | .Kvm => some p.name
            | .Runc | .Kata => i.storage_pool }
        (nodes.set nidx n', i')

/-- Placement over one user's instances, threading the working node list. -/
def scheduleInstances (nodes : List Node) :
    List Instance → List Node × List Instance
  | [] => (nodes, [])
  | i :: rest =>
    let r := scheduleStep nodes i
    let r' := scheduleInstances r.1 rest
    (r'.1, r.2 :: r'.2)

/-- Placement over the user list, threading the working node list. -/
def scheduleUsers (nodes : List Node) : List User → List Node × List User
  | [] => (nodes, [])
  | u :: rest =>
    let r := scheduleInstances nodes u.instances
    let r' := scheduleUsers r.1 rest
    (r'.1, { u with instances := r.2 } :: r'.2)

/-- `Scheduler::schedule` from scheduler.rs: the placement pass. -/
def Scheduler.schedule (s : State) : State :=
  let r := scheduleUsers s.nodes s.users
  { users := r.2, nodes := r.1 }

/-- `Scheduler::run_once` from scheduler.rs: one cycle — `allocate_ip` then
`schedule`, in a single `read_write`. -/
def Scheduler.run_once (pool : List String) (s : State) : State :=
  Scheduler.schedule (Scheduler.allocate_ip pool s)

/-- Modelled from the spec: the Scheduler cycle as §4.3/§4.7 describe it,
with `State::sync_allocated_resources` invoked on the state before the
placement pass ("Before placing, call `sync_allocated_resources` so
node-level allocated totals reflect current instances").  The checked-in
`run_once` has no such call; this definition exists to be compared with it. -/
def runOnceSpec (pool : List String) (s : State) : State :=
  Scheduler.schedule (State.sync_allocated_resources (Scheduler.allocate_ip pool s))

/-! ## collector.rs

`Collector::run_once` gathers per-backend node records (external I/O, passed
in as the input list), sorts them by name, merges consecutive equal-name runs,
and overwrites `State.nodes`.  The overcommit multipliers
(`overcommit_cpu` / `overcommit_memory`, `f64` multiplication by the
configured factors) are passed in as the functions `ocC` / `ocM`. -/

/-- Push-if-missing accumulation of one record's runtime list
(`if !runtimes.contains(runtime) { runtimes.push(..) }`). -/
def dedupRuntimes (acc : List Runtime) (rs : List Runtime) : List Runtime :=
  rs.foldl (fun acc r => if acc.contains r then acc else acc ++ [r]) acc

/-- Push-if-missing (by pool name) accumulation of one record's pool list. -/
def dedupPools (acc : List StoragePool) (ps : List StoragePool) : List StoragePool :=
  ps.foldl (fun acc p => if acc.any (fun q => q.name = p.name) then acc else acc ++ [p]) acc

/-- One step of the `cpu_total` / `memory_total` accumulation:
`if acc == 0 || x > 0 && x < acc { acc = x }`. -/
def minPosStep (acc x : Nat) : Nat :=
  if acc = 0 || (decide (x > 0) && decide (x < acc)) then x else acc

/-- Merge one maximal run of records sharing a name (the inner `while j` loop
of `Collector::run_once`). -/
def mergeGroup (ocC ocM : Nat → Nat) (name : String) (group : List Node) : Node :=
  let runtimes := group.foldl (fun acc n => dedupRuntimes acc n.runtimes) []
  let storage_pools := group.foldl (fun acc n => dedupPools acc n.storage_pools) []
  let cpu_total := group.foldl (fun acc n => minPosStep acc n.cpu_total) 0
  let memory_total := group.foldl (fun acc n => minPosStep acc n.memory_total) 0
  { name := name
    runtimes := runtimes
    storage_pools := storage_pools
    cpu_total := ocC cpu_total
    cpu_allocated := 0
    memory_total := ocM memory_total
    memory_allocated := 0
    storage_total := (storage_pools.map (·.total)).sum
    storage_used := (storage_pools.map (·.used)).sum
    storage_allocated := 0 }

/-- `dropWhile` never lengthens a list (termination measure for
`mergeNodes`). -/
theorem dropWhile_length_le (p : α → Bool) (l : List α) :
    (l.dropWhile p).length ≤ l.length := by
  induction l with
  | nil => simp [List.dropWhile]
  | cons x xs ih =>
    by_cases h : p x
    · simpa [List.dropWhile, h] using Nat.le_succ_of_le ih
    · simp [List.dropWhile, h]

/-- The outer `while i` loop of `Collector::run_once`: merge each maximal
consecutive run of records sharing a name. -/
def mergeNodes (ocC ocM : Nat → Nat) : List Node → List Node
  | [] => []
  | n :: rest =>
    let grp := rest.takeWhile (fun m => m.name = n.name)
    let remaining := rest.dropWhile (fun m => m.name = n.name)
    mergeGroup ocC ocM n.name (n :: grp) :: mergeNodes ocC ocM remaining
termination_by l => l.length
decreasing_by
  simp only [List.length_cons]
  exact Nat.lt_succ_of_le (dropWhile_length_le _ _)

/-- `nodes.sort_by(|a, b| a.name.cmp(&b.name))`: a stable sort of the records
by name (extensionally, any stable sort with the same key agrees). -/
def sortNodesByName (nodes : List Node) : List Node :=
  nodes.insertionSort (fun a b => a.name ≤ b.name)

/-- The pure part of `Collector::run_once`: sort the collected records by
name, then merge runs.  The result is what gets written into `State.nodes`. -/
def collectorMerge (ocC ocM : Nat → Nat) (nodes : List Node) : List Node :=
  mergeNodes ocC ocM (sortNodesByName nodes)

/-! ## storage.rs

The checked-in storage.rs carries its own (earlier) entity types; they are
embedded here under the `Storage` namespace.  `Storage::read_write` runs the
closure on the guarded in-memory state *in place*; only if the closure
returns `true` does it serialize the (already mutated) state and write
temp-file-plus-rename.  `serde_json::to_vec(..).unwrap()` cannot fail for
these types; a failure of the `tokio::fs` write or rename is modelled by
`persistOk = false`.  The returned `Bool` is `Ok(())` vs `Err(..)`. -/

/-- `InstanceStage` from storage.rs (the storage layer's own copy). -/
inductive Storage.InstanceStage where
  | Pending
  | Running
  | Deleting
deriving DecidableEq, Repr

/-- `InstanceStatus` from storage.rs (the storage layer's own copy). -/
inductive Storage.InstanceStatus where
  | Pending
  | Running
  | Deleting
  | Error
deriving DecidableEq, Repr

/-- `Instance` from storage.rs. -/
structure Storage.Instance where
  name : String
  cpu : Nat
  memory : Nat
  disk_size : Nat
  domain_name : String
  stage : Storage.InstanceStage
  status : Storage.InstanceStatus
deriving DecidableEq, Repr

/-- `User` from storage.rs. -/
structure Storage.User where
  username : String
  password : String
  cpu_quota : Nat
  memory_quota : Nat
  disk_quota : Nat
  instances : List Storage.Instance
deriving DecidableEq, Repr

/-- `State` from storage.rs. -/
structure Storage.State where
  users : List Storage.User
deriving DecidableEq, Repr

/-- `Storage::read_write` from storage.rs: run the closure on the in-memory
state in place; if it returns `true`, persist the already-mutated state
(write `<path>.tmp`, then rename).  Returns the in-memory state after the
call and whether the call returned `Ok`. -/
def Storage.read_write (f : Storage.State → Storage.State × Bool)
    (persistOk : Bool) (s : Storage.State) : Storage.State × Bool :=
  let r := f s
  if r.2 then (r.1, persistOk) else (r.1, true)

/-! ## operator_k8s.rs / operator_lxd.rs write-backs

Both reconcilers observe `snapshot()`s, perform external I/O, and commit the
observed status in a later `read_write`.  The observation results are passed
in as parameters; the embedded functions are the `read_write` closures. -/

/-- The values computed by `Operator::update_instance_status` in
operator_k8s.rs before entering the critical section. -/
structure K8sStatusUpdate where
  new_status : InstanceStatus
  new_ssh_host : Option String
  new_ssh_port : Option Int
  new_internal_ip : Option String
  new_external_ip : Option String
  new_node_name : Option String
  new_storage_pool : Option String
  deleted : Bool
deriving DecidableEq, Repr

/-- The `for i in 0..u.instances.len()` loop of the K8s write-back closure:
find the first instance matching the snapshot's `(name, stage)`; remove it if
`deleted`, otherwise apply the updates.  `none` means no match (closure
returns `false`). -/
def k8sWriteInstances (iname : String) (istage : InstanceStage)
    (upd : K8sStatusUpdate) : List Instance → Option (List Instance)
  | [] => none
  | i :: rest =>
    if i.name = iname ∧ i.stage = istage then
      some (if upd.deleted then rest
        else
          { i with
            ssh_host := upd.new_ssh_host
            ssh_port := upd.new_ssh_port
            status := upd.new_status
            internal_ip := upd.new_internal_ip
            external_ip := upd.new_external_ip
            node_name := if upd.new_node_name.isSome then upd.new_node_name else i.node_name
            storage_pool :=
              if upd.new_storage_pool.isSome then upd.new_storage_pool else i.storage_pool }
          :: rest)
    else (k8sWriteInstances iname istage upd rest).map (i :: ·)

/-- The K8s status write-back closure (`operator_k8s.rs`,
`update_instance_status`): looks up the snapshot's user, then its instance by
`(name, stage)`.  Returns the state after the closure and the commit flag. -/
def k8sWriteBack (username iname : String) (istage : InstanceStage)
    (upd : K8sStatusUpdate) (s : State) : State × Bool :=
  match s.find_user username with
  | some u =>
    match k8sWriteInstances iname istage upd u.instances with
    | some is' =>
      (s.modify_user username (fun u' => { u' with instances := is' }), true)
    | none => (s, false)
  | none => (s, false)

/-- The 404 write-back closure of `update_instance_status` in
operator_lxd.rs: the instance vanished externally; remove it if its (current)
stage is `Deleted`, otherwise mark it `Missing`.  The closure always returns
`true`. -/
def lxdWriteBack404 (username iname : String) (s : State) : State × Bool :=
  match (s.find_user username).bind (fun u => u.find_instance iname) with
  | some i =>
    if i.stage = .Deleted then
      (s.modify_user username (fun u => u.remove_instance iname), true)
    else
      (s.modify_user username (fun u => u.modify_instance iname (fun i' =>
        { i' with status := .Missing })), true)
  | none => (s, true)

/-- The status write-back closure of `update_instance_status` in
operator_lxd.rs: `status` is the LXD-reported status string and `internal_ip`
the parsed address; the closure branches on the instance's *current* stage.
The closure always returns `true`. -/
def lxdWriteBackStatus (username iname : String) (status : String)
    (internal_ip : Option String) (s : State) : State × Bool :=
  match (s.find_user username).bind (fun u => u.find_instance iname) with
  | some i =>
    let i' : Instance :=
      match i.stage with
      | .Stopped => if status = "Stopped" then { i with status := .Stopped } else i
      | .Running =>
        let i1 :=
          if status = "Stopped" ∧ i.status = .Creating then { i with status := .Starting }
          else if status = "Running" then { i with status := .Running }
          else i
        { i1 with internal_ip := internal_ip }
      | .Deleted => if status = "Stopped" then { i with status := .Deleting } else i
    (s.modify_user username (fun u => u.modify_instance iname (fun _ => i')), true)
  | none => (s, true)

/-- State effect of `Operator::update_instance_status` in operator_lxd.rs,
given the snapshot instance and the LXD response (`notFound`, or the parsed
status string plus internal IP). -/
def lxdUpdateInstanceStatus (username : String) (snapshot : Instance)
    (notFound : Bool) (status : String) (internal_ip : Option String)
    (s : State) : State :=
  if notFound then
    if snapshot.status = .Creating then s
    else (lxdWriteBack404 username snapshot.name s).1
  else (lxdWriteBackStatus username snapshot.name status internal_ip s).1

/-! ## Concrete fixtures used by counterexample / failing-input theorems -/

/-- A baseline lxc instance awaiting placement (fields varied per fixture). -/
def fixInstance : Instance :=
  { name := "i1", cpu := 2, memory := 4, disk_size := 20, image := .Ubuntu2004, hostname := "i1", ssh_host := none, ssh_port := none, password := "p", stage := .Running, status := .Creating, internal_ip := none, external_ip := some "192.0.2.10", runtime := .Lxc, node_name := none, storage_pool := none }

/-- C3/C5 failing input: node `n1` whose allocated counters are stale (reset
to 0 by a Collector cycle) while the already-placed instance `i0` consumes its
whole capacity; `i1` awaits placement. -/
def staleState : State :=
  { users := [{ username := "a", cpu_quota := 16, memory_quota := 32, disk_quota := 200, instance_quota := 4, instances := [{ fixInstance with name := "i0", cpu := 8, memory := 8, disk_size := 50, status := .Running, node_name := some "n1", storage_pool := some "p" }, { fixInstance with name := "i1", cpu := 8, memory := 8, disk_size := 60 }] }]
    nodes := [{ name := "n1", storage_pools := [{ name := "p", total := 100, used := 0, allocated := 0 }], runtimes := [.Lxc], cpu_total := 8, cpu_allocated := 0, memory_total := 16, memory_allocated := 0, storage_total := 100, storage_used := 0, storage_allocated := 0 }] }

/-- C10 failing input: instance `j` and a node whose second pool reports
`used > total` (e.g. an over-provisioned thin pool); the node is eligible via
its first pool. -/
def badPoolInstance : Instance :=
  { fixInstance with name := "j", cpu := 1, memory := 1, disk_size := 10 }

/-- The node chosen for `badPoolInstance`; pool `p2` has
`max(allocated, used) = 50 > total = 10`. -/
def badPoolNode : Node :=
  { name := "m1", storage_pools := [{ name := "p1", total := 100, used := 0, allocated := 0 }, { name := "p2", total := 10, used := 50, allocated := 0 }], runtimes := [.Lxc], cpu_total := 4, cpu_allocated := 0, memory_total := 4, memory_allocated := 0, storage_total := 110, storage_used := 50, storage_allocated := 0 }

/-- C6 fixture: user `alice` exists and owns only instance `x`. -/
def aliceState : State :=
  { users := [{ username := "alice", cpu_quota := 8, memory_quota := 16, disk_quota := 100, instance_quota := 4, instances := [{ fixInstance with name := "x", stage := .Stopped, status := .Stopped }] }]
    nodes := [] }

/-- C2 fixture: the user appended by the failing `read_write` closure. -/
def addedUser : Storage.User :=
  { username := "bob", password := "pw", cpu_quota := 1, memory_quota := 1, disk_quota := 1, instances := [] }

/-- C2 fixture: a closure that mutates the state and asks for a commit. -/
def appendClosure (s : Storage.State) : Storage.State × Bool :=
  ({ users := s.users ++ [addedUser] }, true)

/-! ## Claims -/

/-- C2 — the claim is right and the code is wrong (code_bug).  spec.md §4.1:
"If persistence fails, the in-memory state MUST remain equal to the pre-call
state (mutate a clone inside the critical section)".  `Storage::read_write`
runs the closure on the guarded state in place, so when the temp-file write
or rename fails (`persistOk = false`) the call returns `Err` yet the
in-memory state keeps the closure's mutation: from the empty state, a
closure that appends a user and returns `true` leaves the user in memory
even though persistence failed. -/
theorem read_write_failure_keeps_mutation :
    (appendClosure ⟨[]⟩).2 = true
    ∧ Storage.read_write appendClosure false ⟨[]⟩ = (⟨[addedUser]⟩, false)
    ∧ (⟨[addedUser]⟩ : Storage.State) ≠ (⟨[]⟩ : Storage.State) := by
  refine ⟨rfl, rfl, ?_⟩
  decide

/-- C3 — the code violates placement feasibility (code_bug): `run_once` never
invokes `sync_allocated_resources`, so the placement pass trusts the stored
(stale) allocated counters.  On `staleState` the pass assigns `i1` to node
`n1`, but with allocated totals recomputed from the current instances the
node's `cpu_allocated` (16) exceeds `cpu_total` (8) — and the §3 inequalities
fail for the instance placed during the pass. -/
theorem placement_feasibility_violated :
    ((Scheduler.schedule staleState).users.map (fun u => u.instances.map (·.node_name))
      = [[some "n1", some "n1"]])
    ∧ ((Scheduler.schedule staleState).sync_allocated_resources.nodes.map
        (fun n => (n.cpu_allocated, n.cpu_total, decide (n.cpu_allocated ≤ n.cpu_total)))
      = [(16, 8, false)]) := by
  exact ⟨rfl, rfl⟩

/-- C5 — the claim is right and the code is wrong (code_bug).  spec.md §4.3:
"Before placing, call `sync_allocated_resources` ..."; the checked-in
`Scheduler::run_once` runs `allocate_ip` and `schedule` with no such call
(`State::sync_allocated_resources` has no caller in the crate).  On
`staleState` the code's cycle places `i1` on the full node `n1`, while the
spec-modelled cycle (`runOnceSpec`, which syncs first) leaves it unplaced. -/
theorem run_once_skips_sync :
    ((Scheduler.run_once [] staleState).users.map (fun u => u.instances.map (·.node_name))
      = [[some "n1", some "n1"]])
    ∧ ((runOnceSpec [] staleState).users.map (fun u => u.instances.map (·.node_name))
      = [[some "n1", none]]) := by
  exact ⟨rfl, rfl⟩

/-- C10 — counterexample to the claim as stated: during the placement pass on
this state the best-node loop chooses `badPoolNode` for `badPoolInstance`
(no pool is pinned, so every pool matches), yet pool `p2` on the chosen node
has `max(allocated, used) = 50 > total = 10`; the unsigned subtraction
`total - max(allocated, used)` underflows there — and the wrap-around value
even makes the pool-selection loop prefer `p2`. -/
theorem chosen_node_bad_pool :
    (pickBestNode badPoolInstance [badPoolNode] = some (0, badPoolNode))
    ∧ (badPoolNode.storage_pools.map
        (fun p => (poolPinMatch badPoolInstance p, decide (max p.allocated p.used ≤ p.total)))
      = [(true, true), (true, false)])
    ∧ ((pickBestPool badPoolInstance badPoolNode.storage_pools).map (fun x => x.2.name)
      = some "p2") := by
  exact ⟨rfl, rfl, rfl⟩

/-- C6 — counterexample to the claim as stated: user `alice` exists and has no
instance named `nosuch`, yet `update_instance` returns no error (HTTP 204,
not a 404 failure); the state is unchanged. -/
theorem update_missing_instance_succeeds :
    ((aliceState.find_user "alice").map (fun u => u.find_instance "nosuch") = some none)
    ∧ update_instance "alice" "nosuch" ⟨some 4, none, none⟩ aliceState = (aliceState, none) := by
  exact ⟨rfl, rfl⟩

/-- C6 (amended) — UpdateInstance preconditions as the code implements them:
for a request passing input validation, if the authenticated user or the
named instance does not exist the handler succeeds with no error (204) and
the state is unchanged; if the instance exists with `stage = Deleted` it is
rejected with `AlreadyDeleted`; if it exists with `status ≠ Stopped` it is
rejected with `NotYetStopped`; in each of these cases the state is
unchanged. -/
theorem update_preconditions (username instance_name : String)
    (req : UpdateInstanceRequest) (s : State)
    (hcpu : req.cpu ≠ some 0) (hmem : req.memory ≠ some 0)
    (hrt : ∀ rs, req.runtime = some rs → (Runtime.fromStr rs).isSome) :
    (s.find_user username = none →
      update_instance username instance_name req s = (s, none))
    ∧ (∀ u, s.find_user username = some u → u.find_instance instance_name = none →
        update_instance username instance_name req s = (s, none))
    ∧ (∀ u inst, s.find_user username = some u →
        u.find_instance instance_name = some inst → inst.stage = .Deleted →
        update_instance username instance_name req s = (s, some .AlreadyDeleted))
    ∧ (∀ u inst, s.find_user username = some u →
        u.find_instance instance_name = some inst → inst.stage ≠ .Deleted →
        inst.status ≠ .Stopped →
        update_instance username instance_name req s = (s, some .NotYetStopped)) := by
  have hval : ∀ r : State × Bool × Option InstanceError,
      updateClosure username instance_name req s = r →
      update_instance username instance_name req s = (r.1, r.2.2) := by
    intro r hr
    unfold update_instance
    rw [if_neg hcpu, if_neg hmem]
    cases hru : req.runtime with
    | none => rw [hr]
    | some rs =>
      have h := hrt rs hru
      cases hfs : Runtime.fromStr rs with
      | none => rw [hfs] at h; simp at h
      | some rt => simp only [hfs, hr]
  refine ⟨?_, ?_, ?_, ?_⟩
  · intro hu
    exact hval (s, false, none) (by unfold updateClosure; rw [hu])
  · intro u hu hi
    exact hval (s, false, none) (by unfold updateClosure; rw [hu]; simp only [hi])
  · intro u inst hu hi hst
    exact hval (s, false, some .AlreadyDeleted)
      (by unfold updateClosure; rw [hu]; simp only [hi]; rw [if_pos hst])
  · intro u inst hu hi hst hsp
    exact hval (s, false, some .NotYetStopped)
      (by unfold updateClosure; rw [hu]; simp only [hi]; rw [if_neg hst, if_pos hsp])

/-- C7 fixture: snapshot of instance `w` taken while its stage was Running. -/
def c7snapshot : Instance :=
  { fixInstance with name := "w", stage := .Running, status := .Running }

/-- C7 fixture: the store meanwhile holds `w` with stage Stopped (the user
called stop after the snapshot was taken). -/
def c7state : State :=
  { users := [{ username := "carol", cpu_quota := 8, memory_quota := 16, disk_quota := 100, instance_quota := 4, instances := [{ fixInstance with name := "w", stage := .Stopped, status := .Stopping }] }]
    nodes := [] }

/-- C7 — counterexample to the claim as stated: the LXD reconciler's status
write-back applies its update although the instance's current stage
(`Stopped`) differs from the stage observed in the snapshot (`Running`): with
LXD reporting "Stopped", it rewrites the instance's status to `Stopped`,
changing the state.  (It re-checks existence by name only and branches on the
current stage, never comparing it with the snapshot's.) -/
theorem lxd_writeback_ignores_stage :
    ((c7state.find_user "carol").map
        (fun u => (u.find_instance "w").map (fun i => i.stage)) = some (some .Stopped))
    ∧ c7snapshot.stage = .Running
    ∧ lxdUpdateInstanceStatus "carol" c7snapshot false "Stopped" none c7state ≠ c7state
    ∧ (((lxdUpdateInstanceStatus "carol" c7snapshot false "Stopped" none c7state).find_user
          "carol").map (fun u => (u.find_instance "w").map (fun i => i.status))
        = some (some .Stopped)) := by
  refine ⟨rfl, rfl, ?_, rfl⟩
  decide

/-- The K8s write-back loop finds no instance when none matches the
snapshot's `(name, stage)`. -/
theorem k8sWriteInstances_eq_none (iname : String) (istage : InstanceStage)
    (upd : K8sStatusUpdate) (l : List Instance)
    (h : ∀ i ∈ l, ¬(i.name = iname ∧ i.stage = istage)) :
    k8sWriteInstances iname istage upd l = none := by
  induction l with
  | nil => rfl
  | cons i rest ih =>
    unfold k8sWriteInstances
    rw [if_neg (h i (List.mem_cons_self i rest))]
    rw [ih (fun j hj => h j (List.mem_cons_of_mem i hj))]
    rfl

/-- C7 (amended) — the write-back guards as the code implements them: the K8s
reconciler's status write-back applies its updates (or removes the record)
only if an instance with the snapshot's name *and* stage still exists for the
user — otherwise it leaves the state unchanged and aborts (commit flag
false); the LXD reconciler's write-backs re-check only that an instance with
the snapshot's name still exists (branching on its current stage, not the
snapshot's) — when none exists, the state is unchanged. -/
theorem writeback_guards :
    (∀ (username iname : String) (istage : InstanceStage) (upd : K8sStatusUpdate) (s : State),
      (∀ u, s.find_user username = some u →
        ∀ i ∈ u.instances, ¬(i.name = iname ∧ i.stage = istage)) →
      k8sWriteBack username iname istage upd s = (s, false))
    ∧ (∀ (username : String) (snapshot : Instance) (notFound : Bool)
        (status : String) (internal_ip : Option String) (s : State),
      (∀ u, s.find_user username = some u →
        ∀ i ∈ u.instances, ¬(i.name = snapshot.name)) →
      lxdUpdateInstanceStatus username snapshot notFound status internal_ip s = s) := by
  constructor
  · intro username iname istage upd s h
    cases hu : s.find_user username with
    | none => simp [k8sWriteBack, hu]
    | some u =>
      simp [k8sWriteBack, hu,
        k8sWriteInstances_eq_none iname istage upd u.instances (h u hu)]
  · intro username snapshot notFound status internal_ip s h
    have hfind : ((s.find_user username).bind
        (fun u => u.find_instance snapshot.name)) = none := by
      cases hu : s.find_user username with
      | none => rfl
      | some u =>
        show u.find_instance snapshot.name = none
        unfold User.find_instance
        exact List.find?_eq_none.mpr (fun i hi => by simpa using h u hu i hi)
    cases notFound with
    | true =>
      by_cases hc : snapshot.status = .Creating
      · simp [lxdUpdateInstanceStatus, hc]
      · simp [lxdUpdateInstanceStatus, hc, lxdWriteBack404, hfind]
    | false =>
      simp [lxdUpdateInstanceStatus, lxdWriteBackStatus, hfind]

/-! ## C9: `sync_allocated_resources` postcondition -/

/-- Map congruence for functions agreeing on members. -/
theorem mapCongrMem {α β : Type _} {f g : α → β} :
    ∀ {l : List α}, (∀ a ∈ l, f a = g a) → l.map f = l.map g
  | [], _ => rfl
  | a :: l, h => by
    simp only [List.map_cons]
    rw [h a (List.mem_cons_self a l), mapCongrMem (fun x hx => h x (List.mem_cons_of_mem a hx))]

/-- Folding instance-wise over each user in turn equals folding over the
flattened instance list. -/
theorem foldl_instances_flatMap {β : Type _} (g : β → Instance → β) (init : β)
    (us : List User) :
    us.foldl (fun b u => u.instances.foldl g b) init
      = (us.flatMap (·.instances)).foldl g init := by
  induction us generalizing init with
  | nil => rfl
  | cons u rest ih => simp only [List.foldl_cons, List.flatMap_cons, List.foldl_append, ih]

/-- The cpu component of the sync fold accumulates, per node name, the sum of
`cpu` over instances placed there. -/
theorem syncFold_cpu (L : List Instance)
    (maps : (String → Nat) × (String → Nat) × (String × String → Nat) × (String → Nat))
    (k : String) :
    (L.foldl syncStep maps).1 k
      = maps.1 k + ((L.filter (fun i => i.node_name = some k)).map (·.cpu)).sum := by
  induction L generalizing maps with
  | nil => simp
  | cons i rest ih =>
    obtain ⟨c, m, p, ns⟩ := maps
    rw [List.foldl_cons, ih]
    cases hn : i.node_name with
    | none => simp [syncStep, hn, List.filter_cons]
    | some nm =>
      by_cases hk : nm = k
      · subst hk
        simp [syncStep, hn, List.filter_cons, accumEntry, Nat.add_assoc]
      · simp [syncStep, hn, List.filter_cons, accumEntry, hk, Ne.symm hk,
          fun h : some nm = some k => hk (Option.some.inj h)]

/-- The memory component of the sync fold. -/
theorem syncFold_memory (L : List Instance)
    (maps : (String → Nat) × (String → Nat) × (String × String → Nat) × (String → Nat))
    (k : String) :
    (L.foldl syncStep maps).2.1 k
      = maps.2.1 k + ((L.filter (fun i => i.node_name = some k)).map (·.memory)).sum := by
  induction L generalizing maps with
  | nil => simp
  | cons i rest ih =>
    obtain ⟨c, m, p, ns⟩ := maps
    rw [List.foldl_cons, ih]
    cases hn : i.node_name with
    | none => simp [syncStep, hn, List.filter_cons]
    | some nm =>
      by_cases hk : nm = k
      · subst hk
        simp [syncStep, hn, List.filter_cons, accumEntry, Nat.add_assoc]
      · simp [syncStep, hn, List.filter_cons, accumEntry, hk, Ne.symm hk,
          fun h : some nm = some k => hk (Option.some.inj h)]

/-- The per-node storage component of the sync fold. -/
theorem syncFold_storage (L : List Instance)
    (maps : (String → Nat) × (String → Nat) × (String × String → Nat) × (String → Nat))
    (k : String) :
    (L.foldl syncStep maps).2.2.2 k
      = maps.2.2.2 k + ((L.filter (fun i => i.node_name = some k)).map (·.disk_size)).sum := by
  induction L generalizing maps with
  | nil => simp
  | cons i rest ih =>
    obtain ⟨c, m, p, ns⟩ := maps
    rw [List.foldl_cons, ih]
    cases hn : i.node_name with
    | none => simp [syncStep, hn, List.filter_cons]
    | some nm =>
      by_cases hk : nm = k
      · subst hk
        cases hs : i.storage_pool <;>
          simp [syncStep, hn, hs, List.filter_cons, accumEntry, Nat.add_assoc]
      · cases hs : i.storage_pool <;>
          simp [syncStep, hn, hs, List.filter_cons, accumEntry, hk, Ne.symm hk,
            fun h : some nm = some k => hk (Option.some.inj h)]

/-- The per-pool storage component of the sync fold. -/
theorem syncFold_pool (L : List Instance)
    (maps : (String → Nat) × (String → Nat) × (String × String → Nat) × (String → Nat))
    (kp : String × String) :
    (L.foldl syncStep maps).2.2.1 kp
      = maps.2.2.1 kp + ((L.filter (fun i =>
          i.node_name = some kp.1 ∧ i.storage_pool = some kp.2)).map (·.disk_size)).sum := by
  induction L generalizing maps with
  | nil => simp
  | cons i rest ih =>
    obtain ⟨c, m, p, ns⟩ := maps
    rw [List.foldl_cons, ih]
    cases hn : i.node_name with
    | none => simp [syncStep, hn, List.filter_cons]
    | some nm =>
      cases hs : i.storage_pool with
      | none => simp [syncStep, hn, hs, List.filter_cons]
      | some sp =>
        by_cases hk : (nm, sp) = kp
        · subst hk
          simp [syncStep, hn, hs, List.filter_cons, accumEntry2, Nat.add_assoc]
        · have hk' : kp ≠ (nm, sp) := fun h => hk h.symm
          have hcond : ¬(nm = kp.1 ∧ sp = kp.2) := by
            rintro ⟨h1, h2⟩
            exact hk (by cases kp; simp_all)
          simp [syncStep, hn, hs, List.filter_cons, accumEntry2, hk', hcond]

/-- C9 — confirmed: after `sync_allocated_resources`, each node's
`cpu_allocated`, `memory_allocated` and `storage_allocated` are the sums of
`cpu`, `memory` and `disk_size` over all instances (of all users) whose
`node_name` points at the node, each pool's `allocated` is the sum of
`disk_size` over instances pinned to `(node, pool)`, nodes/pools referenced by
no instance get 0 (the empty sum), and nothing else in the state changes
(the users are untouched, and every other node/pool field is copied). -/
theorem sync_allocated_resources_correct (s : State) :
    (s.sync_allocated_resources).users = s.users
    ∧ (s.sync_allocated_resources).nodes = s.nodes.map (fun node =>
        { node with
          cpu_allocated := (((s.users.flatMap (·.instances)).filter
              (fun i => i.node_name = some node.name)).map (·.cpu)).sum
          memory_allocated := (((s.users.flatMap (·.instances)).filter
              (fun i => i.node_name = some node.name)).map (·.memory)).sum
          storage_allocated := (((s.users.flatMap (·.instances)).filter
              (fun i => i.node_name = some node.name)).map (·.disk_size)).sum
          storage_pools := node.storage_pools.map (fun p =>
            { p with allocated := (((s.users.flatMap (·.instances)).filter
                (fun i => i.node_name = some node.name ∧
                  i.storage_pool = some p.name)).map (·.disk_size)).sum }) }) := by
  have hmaps : syncMaps s = (s.users.flatMap (·.instances)).foldl syncStep
      (fun _ => 0, fun _ => 0, fun _ => 0, fun _ => 0) := by
    unfold syncMaps
    exact foldl_instances_flatMap _ _ _
  refine ⟨rfl, ?_⟩
  show s.nodes.map _ = s.nodes.map _
  apply mapCongrMem
  intro node _
  rw [hmaps]
  rw [syncFold_cpu, syncFold_memory, syncFold_storage]
  simp only [Nat.zero_add]
  congr 1
  apply mapCongrMem
  intro p _
  rw [syncFold_pool]
  simp only [Nat.zero_add]

/-! ## C1: quota safety of the admission operations -/

/-- Structure of `modifyFirst`: either nothing matches (and the list is
unchanged, `find?` finding nothing), or the list splits around the first
match, which is rewritten. -/
theorem modifyFirst_cases (p : α → Bool) (f : α → α) (l : List α) :
    (l.find? p = none ∧ modifyFirst p f l = l) ∨
    ∃ l1 x l2, l = l1 ++ x :: l2 ∧ (∀ y ∈ l1, p y = false) ∧ p x = true ∧
      l.find? p = some x ∧ modifyFirst p f l = l1 ++ f x :: l2 := by
  induction l with
  | nil => exact .inl ⟨rfl, rfl⟩
  | cons a as ih =>
    by_cases hp : p a = true
    · refine .inr ⟨[], a, as, rfl, by simp, hp, ?_, ?_⟩
      · rw [List.find?_cons_of_pos _ hp]
      · simp [modifyFirst, hp]
    · have hp' : p a = false := by simpa using hp
      rcases ih with ⟨hnone, heq⟩ | ⟨l1, x, l2, hsplit, hl1, hx, hfind, heq⟩
      · refine .inl ⟨?_, ?_⟩
        · rw [List.find?_cons_of_neg _ hp, hnone]
        · simp [modifyFirst, hp', heq]
      · refine .inr ⟨a :: l1, x, l2, by simp [hsplit], ?_, hx, ?_, ?_⟩
        · intro y hy
          rcases List.mem_cons.mp hy with h | h
          · exact h ▸ hp'
          · exact hl1 y h
        · rw [List.find?_cons_of_neg _ hp, hfind]
        · simp [modifyFirst, hp', heq]

/-- `modifyFirst` leaves any projection unchanged when `f` preserves it. -/
theorem map_modifyFirst (g : α → β) (p : α → Bool) (f : α → α)
    (hgf : ∀ x, g (f x) = g x) : ∀ l : List α, (modifyFirst p f l).map g = l.map g := by
  intro l
  induction l with
  | nil => rfl
  | cons a as ih =>
    by_cases hp : p a = true
    · simp [modifyFirst, hp, hgf]
    · have hp' : p a = false := by simpa using hp
      simp [modifyFirst, hp', ih]

/-- Quota facts for the `create_instance` push path: the resulting state is
within quota and keeps names unique. -/
theorem push_ok (username password : String) (req : CreateInstanceRequest)
    (image : Image) (runtime : Runtime) (s : State) (u : User)
    (hu : s.find_user username = some u)
    (hcount : u.instances.length + 1 ≤ u.instance_quota)
    (hdup : (u.instances.any (fun i => i.name = req.name)) = false)
    (hcpu : u.cpuSum + req.cpu ≤ u.cpu_quota)
    (hmem : u.memorySum + req.memory ≤ u.memory_quota)
    (hdisk : u.diskSum + req.disk_size ≤ u.disk_quota)
    (h : s.withinQuota ∧ s.namesUnique) :
    (s.modify_user username (fun u' =>
      { u' with instances := u'.instances ++ [newInstance password req image runtime] })).withinQuota
    ∧ (s.modify_user username (fun u' =>
      { u' with instances := u'.instances ++ [newInstance password req image runtime] })).namesUnique := by
  set f : User → User := fun u' =>
    { u' with instances := u'.instances ++ [newInstance password req image runtime] } with hf
  rcases modifyFirst_cases (fun v => v.username = username) f s.users with
    ⟨hnone, _⟩ | ⟨l1, x, l2, hsplit, _, _, hfind, heq⟩
  · rw [State.find_user, hnone] at hu
    exact absurd hu (by simp)
  · have hx : x = u := by
      rw [State.find_user, hfind] at hu
      exact Option.some.inj hu
    subst hx
    have hmem_src : ∀ v, v ∈ l1 ∨ v ∈ l2 → v ∈ s.users := by
      intro v hv
      rw [hsplit]
      rcases hv with hv | hv
      · exact List.mem_append.mpr (.inl hv)
      · exact List.mem_append.mpr (.inr (List.mem_cons_of_mem _ hv))
    have hxmem : x ∈ s.users := by
      rw [hsplit]
      exact List.mem_append.mpr (.inr (List.mem_cons_self _ _))
    have hfu : (f x).withinQuota ∧ (f x).namesUnique := by
      have hnames : ∀ i ∈ x.instances, ¬(i.name = req.name) := by
        intro i hi
        have := List.any_eq_false.mp hdup i hi
        simpa using this
      constructor
      · refine ⟨?_, ?_, ?_, ?_⟩
        · simpa [hf, User.withinQuota] using hcount
        · simpa [hf, User.cpuSum, newInstance] using hcpu
        · simpa [hf, User.memorySum, newInstance] using hmem
        · simpa [hf, User.diskSum, newInstance] using hdisk
      · show ((x.instances ++ [newInstance password req image runtime]).map (·.name)).Nodup
        rw [List.map_append]
        refine List.Nodup.append (h.2 x hxmem) (by simp) ?_
        intro a ha hb
        simp only [newInstance, List.map_cons, List.map_nil, List.mem_singleton] at hb
        rcases List.mem_map.mp ha with ⟨i, hi, hia⟩
        exact hnames i hi (by rw [hia, hb])
    constructor
    · intro v hv
      rw [State.modify_user] at hv
      simp only at hv
      rw [heq] at hv
      rcases List.mem_append.mp hv with hv | hv
      · exact h.1 v (hmem_src v (.inl hv))
      · rcases List.mem_cons.mp hv with hv | hv
        · exact hv ▸ hfu.1
        · exact h.1 v (hmem_src v (.inr hv))
    · intro v hv
      rw [State.modify_user] at hv
      simp only at hv
      rw [heq] at hv
      rcases List.mem_append.mp hv with hv | hv
      · exact h.2 v (hmem_src v (.inl hv))
      · rcases List.mem_cons.mp hv with hv | hv
        · exact hv ▸ hfu.2
        · exact h.2 v (hmem_src v (.inr hv))

/-- `create_instance` preserves the quota and name-uniqueness invariants. -/
theorem create_preserves (username password : String) (req : CreateInstanceRequest)
    (s : State) (h : s.withinQuota ∧ s.namesUnique) :
    (create_instance username password req s).1.withinQuota
    ∧ (create_instance username password req s).1.namesUnique := by
  unfold create_instance
  cases hv : createValidate req with
  | error e => exact h
  | ok pr =>
    obtain ⟨image, runtime⟩ := pr
    show (createClosure username password req image runtime s).1.withinQuota ∧ _
    unfold createClosure
    split
    · exact h
    · cases hu : s.find_user username with
      | none => exact h
      | some u =>
        simp only
        split
        · exact h
        · split
          · exact h
          · split
            · exact h
            · split
              · exact h
              · split
                · exact h
                · rename_i hnofit hcount hdup hcpu hmem hdisk
                  exact push_ok username password req image runtime s u hu
                    (Nat.le_of_not_lt hcount)
                    (by simpa using hdup)
                    (Nat.le_of_not_lt hcpu) (Nat.le_of_not_lt hmem)
                    (Nat.le_of_not_lt hdisk) h

/-- The runtime step of the update closure commits an instance value whose
name, cpu, memory and disk_size agree with its input. -/
theorem updateRuntimeStep_state (commit : Instance → State) (i : Instance)
    (req : UpdateInstanceRequest) :
    ∃ i', (updateRuntimeStep commit i req).1 = commit i'
      ∧ i'.name = i.name ∧ i'.cpu = i.cpu ∧ i'.memory = i.memory
      ∧ i'.disk_size = i.disk_size := by
  cases hr : req.runtime with
  | none => exact ⟨i, by simp [updateRuntimeStep, hr], rfl, rfl, rfl, rfl⟩
  | some rs =>
    cases hf : Runtime.fromStr rs with
    | none => exact ⟨i, by simp [updateRuntimeStep, hr, hf], rfl, rfl, rfl, rfl⟩
    | some rt =>
      by_cases hc : i.runtime.compatiable_with rt = true
      · exact ⟨{ i with runtime := rt },
          by simp [updateRuntimeStep, hr, hf, hc], rfl, rfl, rfl, rfl⟩
      · exact ⟨i, by simp [updateRuntimeStep, hr, hf, hc], rfl, rfl, rfl, rfl⟩

/-- The memory step of the update closure commits an instance value whose
name, cpu and disk_size agree with its input, and whose memory either agrees
or passed the quota check. -/
theorem updateMemoryStep_state (commit : Instance → State) (tm mq : Nat)
    (i : Instance) (req : UpdateInstanceRequest) :
    ∃ i', (updateMemoryStep commit tm mq i req).1 = commit i'
      ∧ i'.name = i.name ∧ i'.cpu = i.cpu ∧ i'.disk_size = i.disk_size
      ∧ (i'.memory = i.memory ∨ tm + i'.memory ≤ mq) := by
  unfold updateMemoryStep
  cases req.memory with
  | none =>
    obtain ⟨i', h1, h2, h3, h4, h5⟩ := updateRuntimeStep_state commit i req
    exact ⟨i', h1, h2, h3, h5, .inl h4⟩
  | some m =>
    by_cases hq : tm + m > mq
    · exact ⟨i, by simp [hq], rfl, rfl, rfl, .inl rfl⟩
    · obtain ⟨i', h1, h2, h3, h4, h5⟩ :=
        updateRuntimeStep_state commit { i with memory := m } req
      refine ⟨i', by simp [hq, h1], h2, h3, h5, .inr ?_⟩
      rw [h4]
      exact Nat.le_of_not_lt hq

/-- Structure of the `update_instance` closure's state effect: unchanged, or a
single-instance rewrite whose fields are quota-checked. -/
theorem updateClosure_state (username iname : String) (req : UpdateInstanceRequest)
    (s : State) :
    (updateClosure username iname req s).1 = s ∨
    ∃ u inst i', s.find_user username = some u ∧ u.find_instance iname = some inst ∧
      (updateClosure username iname req s).1
        = s.modify_user username (fun u' => u'.modify_instance iname (fun _ => i')) ∧
      i'.name = inst.name ∧ i'.disk_size = inst.disk_size ∧
      (i'.cpu = inst.cpu ∨
        ((u.instances.filter (fun j => j.name ≠ iname)).map (·.cpu)).sum + i'.cpu
          ≤ u.cpu_quota) ∧
      (i'.memory = inst.memory ∨
        ((u.instances.filter (fun j => j.name ≠ iname)).map (·.memory)).sum + i'.memory
          ≤ u.memory_quota) := by
  unfold updateClosure
  cases hu : s.find_user username with
  | none => exact .inl rfl
  | some u =>
    simp only
    cases hi : u.find_instance iname with
    | none => exact .inl rfl
    | some inst =>
      simp only
      split
      · exact .inl rfl
      · split
        · exact .inl rfl
        · set commit : Instance → State := fun i' =>
            s.modify_user username (fun u' => u'.modify_instance iname (fun _ => i'))
          cases hc : req.cpu with
          | some c =>
            simp only
            split
            · exact .inl rfl
            · rename_i hq
              obtain ⟨i', h1, h2, h3, h4, h5⟩ := updateMemoryStep_state commit
                (((u.instances.filter (fun j => j.name ≠ iname)).map (·.memory)).sum)
                u.memory_quota { inst with cpu := c } req
              refine .inr ⟨u, inst, i', rfl, hi, h1, h2, h4, .inr ?_, ?_⟩
              · rw [h3]
                exact Nat.le_of_not_lt hq
              · rcases h5 with h5 | h5
                · exact .inl h5
                · exact .inr h5
          | none =>
            simp only
            obtain ⟨i', h1, h2, h3, h4, h5⟩ := updateMemoryStep_state commit
              (((u.instances.filter (fun j => j.name ≠ iname)).map (·.memory)).sum)
              u.memory_quota inst req
            refine .inr ⟨u, inst, i', rfl, hi, h1, h2, h4, .inl h3, ?_⟩
            rcases h5 with h5 | h5
            · exact .inl h5
            · exact .inr h5

/-- Rewriting the (unique) instance `iname` of user `username` with a value
that keeps its name and disk size, and whose cpu/memory either agree or are
re-checked against the quota excluding the old contribution, preserves the
invariants. -/
theorem commit_ok (username iname : String) (s : State) (u : User) (inst i' : Instance)
    (hu : s.find_user username = some u)
    (hi : u.find_instance iname = some inst)
    (hname : i'.name = inst.name) (hdisk : i'.disk_size = inst.disk_size)
    (hcpu : i'.cpu = inst.cpu ∨
      ((u.instances.filter (fun j => j.name ≠ iname)).map (·.cpu)).sum + i'.cpu ≤ u.cpu_quota)
    (hmem : i'.memory = inst.memory ∨
      ((u.instances.filter (fun j => j.name ≠ iname)).map (·.memory)).sum + i'.memory
        ≤ u.memory_quota)
    (h : s.withinQuota ∧ s.namesUnique) :
    (s.modify_user username (fun u' => u'.modify_instance iname (fun _ => i'))).withinQuota
    ∧ (s.modify_user username (fun u' => u'.modify_instance iname (fun _ => i'))).namesUnique := by
  set g : User → User := fun u' => u'.modify_instance iname (fun _ => i') with hg
  rcases modifyFirst_cases (fun v => v.username = username) g s.users with
    ⟨hnone, _⟩ | ⟨l1, x, l2, hsplit, _, _, hfind, heq⟩
  · rw [State.find_user, hnone] at hu
    exact absurd hu (by simp)
  · have hx : x = u := by
      rw [State.find_user, hfind] at hu
      exact Option.some.inj hu
    subst hx
    have hmem_src : ∀ v, v ∈ l1 ∨ v ∈ l2 → v ∈ s.users := by
      intro v hv
      rw [hsplit]
      rcases hv with hv | hv
      · exact List.mem_append.mpr (.inl hv)
      · exact List.mem_append.mpr (.inr (List.mem_cons_of_mem _ hv))
    have hxmem : x ∈ s.users := by
      rw [hsplit]
      exact List.mem_append.mpr (.inr (List.mem_cons_self _ _))
    -- decompose the instance list around the (unique) instance named iname
    rcases modifyFirst_cases (fun j => j.name = iname) (fun _ => i') x.instances with
      ⟨hnone', _⟩ | ⟨m1, y, m2, hsplit', hm1, hy, hfind', heq'⟩
    · rw [User.find_instance, hnone'] at hi
      exact absurd hi (by simp)
    · have hyi : y = inst := by
        rw [User.find_instance, hfind'] at hi
        exact Option.some.inj hi
      subst hyi
      have hinstname : y.name = iname := by
        simpa using hy
      have hnodup : ((m1 ++ y :: m2).map (·.name)).Nodup := by
        rw [← hsplit']
        exact h.2 x hxmem
      have hm2 : ∀ j ∈ m2, j.name ≠ iname := by
        rw [List.map_append, List.map_cons] at hnodup
        have hr := (List.nodup_append.mp hnodup).2.1
        have hni := (List.nodup_cons.mp hr).1
        intro j hj hjn
        refine hni ?_
        have : j.name ∈ m2.map (·.name) := List.mem_map_of_mem _ hj
        rw [hjn, ← hinstname] at this
        exact this
      have hm1' : ∀ y ∈ m1, y.name ≠ iname := by
        intro y hy'
        simpa using hm1 y hy'
      have hfilter : x.instances.filter (fun j => j.name ≠ iname) = m1 ++ m2 := by
        rw [hsplit', List.filter_append]
        congr 1
        · exact List.filter_eq_self.mpr (fun y hy' => by simpa using hm1' y hy')
        · have hdec : (decide ¬(y.name = iname)) = false := by simp [hinstname]
          rw [List.filter_cons]
          simp only [hdec, Bool.false_eq_true, if_false]
          exact List.filter_eq_self.mpr (fun y hy' => by simpa using hm2 y hy')
      have hquota_x := h.1 x hxmem
      have hgx : g x = { x with instances := m1 ++ i' :: m2 } := by
        simp only [hg, User.modify_instance, heq']
      have hfux : (g x).withinQuota ∧ (g x).namesUnique := by
        rw [hgx]
        obtain ⟨hq1, hq2, hq3, hq4⟩ := hquota_x
        rw [hsplit'] at hq1
        rw [User.cpuSum, hsplit'] at hq2
        rw [User.memorySum, hsplit'] at hq3
        rw [User.diskSum, hsplit'] at hq4
        constructor
        · refine ⟨?_, ?_, ?_, ?_⟩
          · simpa using hq1
          · show ((m1 ++ i' :: m2).map (·.cpu)).sum ≤ x.cpu_quota
            rcases hcpu with hceq | hcle
            · simp only [List.map_append, List.sum_append, List.map_cons, List.sum_cons] at hq2 ⊢
              omega
            · rw [hfilter] at hcle
              simp only [List.map_append, List.sum_append, List.map_cons, List.sum_cons] at hcle ⊢
              omega
          · show ((m1 ++ i' :: m2).map (·.memory)).sum ≤ x.memory_quota
            rcases hmem with hmeq | hmle
            · simp only [List.map_append, List.sum_append, List.map_cons, List.sum_cons] at hq3 ⊢
              omega
            · rw [hfilter] at hmle
              simp only [List.map_append, List.sum_append, List.map_cons, List.sum_cons] at hmle ⊢
              omega
          · show ((m1 ++ i' :: m2).map (·.disk_size)).sum ≤ x.disk_quota
            simp only [List.map_append, List.sum_append, List.map_cons, List.sum_cons] at hq4 ⊢
            omega
        · show ((m1 ++ i' :: m2).map (·.name)).Nodup
          have : (m1 ++ i' :: m2).map (·.name) = (m1 ++ y :: m2).map (·.name) := by
            simp [hname]
          rw [this]
          exact hnodup
      constructor
      · intro v hv
        rw [State.modify_user] at hv
        simp only at hv
        rw [heq] at hv
        rcases List.mem_append.mp hv with hv | hv
        · exact h.1 v (hmem_src v (.inl hv))
        · rcases List.mem_cons.mp hv with hv | hv
          · exact hv ▸ hfux.1
          · exact h.1 v (hmem_src v (.inr hv))
      · intro v hv
        rw [State.modify_user] at hv
        simp only at hv
        rw [heq] at hv
        rcases List.mem_append.mp hv with hv | hv
        · exact h.2 v (hmem_src v (.inl hv))
        · rcases List.mem_cons.mp hv with hv | hv
          · exact hv ▸ hfux.2
          · exact h.2 v (hmem_src v (.inr hv))

/-- The `update_instance` handler reduces to its closure once validation
passes. -/
theorem update_instance_eq_closure (username iname : String)
    (req : UpdateInstanceRequest) (s : State)
    (hcpu : req.cpu ≠ some 0) (hmem : req.memory ≠ some 0)
    (hrt : ∀ rs, req.runtime = some rs → (Runtime.fromStr rs).isSome) :
    update_instance username iname req s
      = ((updateClosure username iname req s).1, (updateClosure username iname req s).2.2) := by
  unfold update_instance
  rw [if_neg hcpu, if_neg hmem]
  cases hru : req.runtime with
  | none => rfl
  | some rs =>
    have h := hrt rs hru
    cases hfs : Runtime.fromStr rs with
    | none => rw [hfs] at h; simp at h
    | some rt => simp only [hfs]

/-- `update_instance` preserves the quota and name-uniqueness invariants. -/
theorem update_preserves (username iname : String) (req : UpdateInstanceRequest)
    (s : State) (h : s.withinQuota ∧ s.namesUnique) :
    (update_instance username iname req s).1.withinQuota
    ∧ (update_instance username iname req s).1.namesUnique := by
  have hcl : ((updateClosure username iname req s).1).withinQuota
      ∧ ((updateClosure username iname req s).1).namesUnique := by
    rcases updateClosure_state username iname req s with
      heq | ⟨u, inst, i', hu, hi, heq, hname, hdisk, hcpu, hmem⟩
    · rw [heq]; exact h
    · rw [heq]; exact commit_ok username iname s u inst i' hu hi hname hdisk hcpu hmem h
  unfold update_instance
  split
  · exact h
  · split
    · exact h
    · cases hru : req.runtime with
      | none => exact hcl
      | some rs =>
        cases hfs : Runtime.fromStr rs with
        | none => simp only [hfs]; exact h
        | some rt => simp only [hfs]; exact hcl

/-- Rewriting one instance with a function preserving name, cpu, memory and
disk_size preserves the invariants (covers start/stop/delete). -/
theorem modify_preserves (username iname : String) (f : Instance → Instance) (s : State)
    (hf : ∀ i, (f i).name = i.name ∧ (f i).cpu = i.cpu ∧ (f i).memory = i.memory
      ∧ (f i).disk_size = i.disk_size)
    (h : s.withinQuota ∧ s.namesUnique) :
    (s.modify_user username (fun u => u.modify_instance iname f)).withinQuota
    ∧ (s.modify_user username (fun u => u.modify_instance iname f)).namesUnique := by
  set g : User → User := fun u => u.modify_instance iname f with hg
  have hgu : ∀ u : User, (g u).withinQuota ∧ (g u).namesUnique
      → True := fun _ _ => trivial
  rcases modifyFirst_cases (fun v => v.username = username) g s.users with
    ⟨_, heq⟩ | ⟨l1, x, l2, hsplit, _, _, _, heq⟩
  · constructor <;> intro v hv <;> rw [State.modify_user] at hv <;> simp only at hv <;>
      rw [heq] at hv
    · exact h.1 v hv
    · exact h.2 v hv
  · have hmem_src : ∀ v, v ∈ l1 ∨ v ∈ l2 → v ∈ s.users := by
      intro v hv
      rw [hsplit]
      rcases hv with hv | hv
      · exact List.mem_append.mpr (.inl hv)
      · exact List.mem_append.mpr (.inr (List.mem_cons_of_mem _ hv))
    have hxmem : x ∈ s.users := by
      rw [hsplit]
      exact List.mem_append.mpr (.inr (List.mem_cons_self _ _))
    have hnames : (g x).instances.map (·.name) = x.instances.map (·.name) := by
      simp only [hg, User.modify_instance]
      exact map_modifyFirst _ _ _ (fun i => (hf i).1) _
    have hcpus : (g x).instances.map (·.cpu) = x.instances.map (·.cpu) := by
      simp only [hg, User.modify_instance]
      exact map_modifyFirst _ _ _ (fun i => (hf i).2.1) _
    have hmems : (g x).instances.map (·.memory) = x.instances.map (·.memory) := by
      simp only [hg, User.modify_instance]
      exact map_modifyFirst _ _ _ (fun i => (hf i).2.2.1) _
    have hdisks : (g x).instances.map (·.disk_size) = x.instances.map (·.disk_size) := by
      simp only [hg, User.modify_instance]
      exact map_modifyFirst _ _ _ (fun i => (hf i).2.2.2) _
    have hlen : (g x).instances.length = x.instances.length := by
      have := congrArg List.length hnames
      simpa using this
    have hxq := h.1 x hxmem
    have hfux : (g x).withinQuota ∧ (g x).namesUnique := by
      obtain ⟨hq1, hq2, hq3, hq4⟩ := hxq
      constructor
      · exact ⟨by rw [hlen]; exact hq1,
          by rw [User.cpuSum, hcpus]; exact hq2,
          by rw [User.memorySum, hmems]; exact hq3,
          by rw [User.diskSum, hdisks]; exact hq4⟩
      · show ((g x).instances.map (·.name)).Nodup
        rw [hnames]
        exact h.2 x hxmem
    constructor
    · intro v hv
      rw [State.modify_user] at hv
      simp only at hv
      rw [heq] at hv
      rcases List.mem_append.mp hv with hv | hv
      · exact h.1 v (hmem_src v (.inl hv))
      · rcases List.mem_cons.mp hv with hv | hv
        · exact hv ▸ hfux.1
        · exact h.1 v (hmem_src v (.inr hv))
    · intro v hv
      rw [State.modify_user] at hv
      simp only at hv
      rw [heq] at hv
      rcases List.mem_append.mp hv with hv | hv
      · exact h.2 v (hmem_src v (.inl hv))
      · rcases List.mem_cons.mp hv with hv | hv
        · exact hv ▸ hfux.2
        · exact h.2 v (hmem_src v (.inr hv))

/-- Every admission operation preserves the invariants. -/
theorem applyAdmission_preserves (op : AdmissionOp) (s : State)
    (h : s.withinQuota ∧ s.namesUnique) :
    (applyAdmission op s).1.withinQuota ∧ (applyAdmission op s).1.namesUnique := by
  cases op with
  | create username pw req => exact create_preserves username pw req s h
  | update username iname req => exact update_preserves username iname req s h
  | start username iname =>
    show (start_instance username iname s).1.withinQuota
      ∧ (start_instance username iname s).1.namesUnique
    unfold start_instance
    cases hfi : (s.find_user username).bind (fun u => u.find_instance iname) with
    | none => exact h
    | some inst =>
      simp only
      split
      · exact h
      · split
        · exact modify_preserves username iname
            (fun i => { i with stage := .Running, status := .Starting }) s
            (fun i => ⟨rfl, rfl, rfl, rfl⟩) h
        · exact h
  | stop username iname =>
    show (stop_instance username iname s).1.withinQuota
      ∧ (stop_instance username iname s).1.namesUnique
    unfold stop_instance
    cases hfi : (s.find_user username).bind (fun u => u.find_instance iname) with
    | none => exact h
    | some inst =>
      simp only
      split
      · exact h
      · split
        · exact modify_preserves username iname
            (fun i => { i with stage := .Stopped, status := .Stopping }) s
            (fun i => ⟨rfl, rfl, rfl, rfl⟩) h
        · exact h
  | delete username iname =>
    show (delete_instance username iname s).1.withinQuota
      ∧ (delete_instance username iname s).1.namesUnique
    unfold delete_instance
    cases hfi : (s.find_user username).bind (fun u => u.find_instance iname) with
    | none => exact h
    | some inst =>
      simp only
      split
      · exact modify_preserves username iname
          (fun i => { i with
            stage := .Deleted
            status := match i.runtime with
              | .Kata | .Runc => .Deleting
              | .Lxc | .Kvm => .Stopping }) s
          (fun i => ⟨rfl, rfl, rfl, rfl⟩) h
      · exact h

/-- Any sequence of admission operations preserves the invariants. -/
theorem applyAdmissionSeq_preserves (ops : List AdmissionOp) (s : State)
    (h : s.withinQuota ∧ s.namesUnique) :
    (applyAdmissionSeq ops s).withinQuota ∧ (applyAdmissionSeq ops s).namesUnique := by
  induction ops generalizing s with
  | nil => exact h
  | cons op rest ih => exact ih (applyAdmission op s).1 (applyAdmission_preserves op s h)

/-- When `create_instance` reaches the quota checks (validation, node
feasibility and user lookup succeeded, the name is not a duplicate) and some
per-user quota would be exceeded, it leaves the state unchanged and rejects
with `QuotaExceeded`. -/
theorem create_quota_reject (username pw : String) (req : CreateInstanceRequest)
    (image : Image) (runtime : Runtime) (s : State) (u : User)
    (hv : createValidate req = .ok (image, runtime))
    (hany : s.nodes.any (nodeFitsCreate req) = true)
    (hu : s.find_user username = some u)
    (hdup : (u.instances.any (fun i => i.name = req.name)) = false)
    (hexc : u.instances.length + 1 > u.instance_quota
      ∨ u.cpuSum + req.cpu > u.cpu_quota
      ∨ u.memorySum + req.memory > u.memory_quota
      ∨ u.diskSum + req.disk_size > u.disk_quota) :
    (create_instance username pw req s).1 = s
    ∧ isQuotaExceeded (create_instance username pw req s).2 := by
  simp only [User.cpuSum, User.memorySum, User.diskSum] at hexc
  have key : (createClosure username pw req image runtime s).1 = s
      ∧ isQuotaExceeded (createClosure username pw req image runtime s).2.2 := by
    unfold createClosure
    simp only [hany, Bool.not_true, Bool.false_eq_true, if_false, hu]
    by_cases hq1 : u.instances.length + 1 > u.instance_quota
    · simp [hq1, isQuotaExceeded]
    · rw [if_neg hq1]
      simp only [hdup, Bool.false_eq_true, if_false]
      by_cases hq2 : (u.instances.map (·.cpu)).sum + req.cpu > u.cpu_quota
      · simp [hq2, isQuotaExceeded]
      · rw [if_neg hq2]
        by_cases hq3 : (u.instances.map (·.memory)).sum + req.memory > u.memory_quota
        · simp [hq3, isQuotaExceeded]
        · rw [if_neg hq3]
          by_cases hq4 : (u.instances.map (·.disk_size)).sum + req.disk_size > u.disk_quota
          · simp [hq4, isQuotaExceeded]
          · exfalso
            rcases hexc with hx | hx | hx | hx
            · exact hq1 hx
            · exact hq2 hx
            · exact hq3 hx
            · exact hq4 hx
  unfold create_instance
  simp only [hv]
  exact key

/-- When `update_instance` reaches the quota checks and the cpu (or, the cpu
check passing, the memory) update would exceed the quota excluding the target
instance's contribution, it rejects with `QuotaExceeded`. -/
theorem update_quota_reject (username iname : String) (req : UpdateInstanceRequest)
    (s : State) (u : User) (inst : Instance)
    (hcpu0 : req.cpu ≠ some 0) (hmem0 : req.memory ≠ some 0)
    (hrt : ∀ rs, req.runtime = some rs → (Runtime.fromStr rs).isSome)
    (hu : s.find_user username = some u) (hi : u.find_instance iname = some inst)
    (hstage : inst.stage ≠ .Deleted) (hstatus : inst.status = .Stopped)
    (hexc : (∃ c, req.cpu = some c ∧
        ((u.instances.filter (fun j => j.name ≠ iname)).map (·.cpu)).sum + c > u.cpu_quota)
      ∨ ((∀ c, req.cpu = some c →
          ((u.instances.filter (fun j => j.name ≠ iname)).map (·.cpu)).sum + c ≤ u.cpu_quota)
        ∧ ∃ m, req.memory = some m ∧
          ((u.instances.filter (fun j => j.name ≠ iname)).map (·.memory)).sum + m
            > u.memory_quota)) :
    isQuotaExceeded (update_instance username iname req s).2 := by
  rw [update_instance_eq_closure username iname req s hcpu0 hmem0 hrt]
  show isQuotaExceeded (updateClosure username iname req s).2.2
  unfold updateClosure
  simp only [hu, hi]
  rw [if_neg hstage, if_neg (by simp [hstatus] : ¬inst.status ≠ InstanceStatus.Stopped)]
  rcases hexc with ⟨c, hc, hgt⟩ | ⟨hcle, m, hm, hgt⟩
  · simp only [ne_eq, decide_not] at hgt
    simp only [hc]
    simp [hgt, isQuotaExceeded]
  · cases hc2 : req.cpu with
    | some c =>
      have hle := hcle c hc2
      have hle' : ¬(((u.instances.filter (fun j => j.name ≠ iname)).map (·.cpu)).sum + c
          > u.cpu_quota) := Nat.not_lt.mpr hle
      simp only [hc2]
      rw [if_neg hle']
      unfold updateMemoryStep
      simp only [hm]
      simp only [ne_eq, decide_not] at hgt
      simp [hgt, isQuotaExceeded]
    | none =>
      simp only
      unfold updateMemoryStep
      simp only [hm]
      simp only [ne_eq, decide_not] at hgt
      simp [hgt, isQuotaExceeded]

/-- C1 fixture (counterexample): a user within every quota but owning two
instances that share the name "x" (the claim does not assume name
uniqueness of the starting state). -/
def dupState : State :=
  { users := [{ username := "dave", cpu_quota := 4, memory_quota := 100, disk_quota := 100, instance_quota := 2, instances := [{ fixInstance with name := "x", cpu := 2, memory := 2, disk_size := 10, stage := .Stopped, status := .Stopped }, { fixInstance with name := "x", cpu := 2, memory := 2, disk_size := 10, stage := .Stopped, status := .Stopped }] }]
    nodes := [] }

/-- C1 — counterexample to the claim as stated: from a state where every user
is within quota (but one user has two instances named "x"), a single
`UpdateInstance{cpu: 4}` is accepted — the handler sums the other instances by
excluding *all* instances with the target name, so it excludes both copies —
and afterwards the user's Σcpu = 6 exceeds cpu_quota = 4. -/
theorem quota_safety_counterexample :
    dupState.withinQuota
    ∧ ¬(applyAdmissionSeq [.update "dave" "x" ⟨some 4, none, none⟩] dupState).withinQuota := by
  constructor
  · decide
  · decide

/-- C1 (amended) — quota safety given name uniqueness: starting from a state
where every user is within quota *and instance names are unique per user*,
any sequence of admission operations keeps every user within quota (and keeps
names unique); moreover a CreateInstance that reaches the quota checks and
would exceed any per-user quota is rejected with `QuotaExceeded` and leaves
the state unchanged, and an UpdateInstance that reaches the quota checks and
whose cpu (or memory) change would exceed the quota is rejected with
`QuotaExceeded`. -/
theorem quota_safety (s : State) (ops : List AdmissionOp)
    (h1 : s.withinQuota) (h2 : s.namesUnique) :
    ((applyAdmissionSeq ops s).withinQuota ∧ (applyAdmissionSeq ops s).namesUnique)
    ∧ (∀ (username pw : String) (req : CreateInstanceRequest) (image : Image)
        (runtime : Runtime) (u : User),
        createValidate req = .ok (image, runtime) →
        s.nodes.any (nodeFitsCreate req) = true →
        s.find_user username = some u →
        (u.instances.any (fun i => i.name = req.name)) = false →
        (u.instances.length + 1 > u.instance_quota ∨ u.cpuSum + req.cpu > u.cpu_quota
          ∨ u.memorySum + req.memory > u.memory_quota
          ∨ u.diskSum + req.disk_size > u.disk_quota) →
        (create_instance username pw req s).1 = s
          ∧ isQuotaExceeded (create_instance username pw req s).2)
    ∧ (∀ (username iname : String) (req : UpdateInstanceRequest) (u : User) (inst : Instance),
        req.cpu ≠ some 0 → req.memory ≠ some 0 →
        (∀ rs, req.runtime = some rs → (Runtime.fromStr rs).isSome) →
        s.find_user username = some u → u.find_instance iname = some inst →
        inst.stage ≠ .Deleted → inst.status = .Stopped →
        ((∃ c, req.cpu = some c ∧
            ((u.instances.filter (fun j => j.name ≠ iname)).map (·.cpu)).sum + c
              > u.cpu_quota)
          ∨ ((∀ c, req.cpu = some c →
              ((u.instances.filter (fun j => j.name ≠ iname)).map (·.cpu)).sum + c
                ≤ u.cpu_quota)
            ∧ ∃ m, req.memory = some m ∧
              ((u.instances.filter (fun j => j.name ≠ iname)).map (·.memory)).sum + m
                > u.memory_quota)) →
        isQuotaExceeded (update_instance username iname req s).2) :=
  ⟨applyAdmissionSeq_preserves ops s ⟨h1, h2⟩,
   fun username pw req image runtime u hv hany hu hdup hexc =>
     create_quota_reject username pw req image runtime s u hv hany hu hdup hexc,
   fun username iname req u inst hc hm hrt hu hi hstage hstatus hexc =>
     update_quota_reject username iname req s u inst hc hm hrt hu hi hstage hstatus hexc⟩

/-- Witness for the amended C1 at a concrete state and operation sequence. -/
theorem quota_safety_witness :
    aliceState.withinQuota ∧ aliceState.namesUnique
    ∧ ((applyAdmissionSeq [AdmissionOp.stop "alice" "x"] aliceState).withinQuota
      ∧ (applyAdmissionSeq [AdmissionOp.stop "alice" "x"] aliceState).namesUnique) :=
  ⟨by decide, by decide,
   (quota_safety aliceState [AdmissionOp.stop "alice" "x"] (by decide) (by decide)).1⟩

/-! ## C10: pool guard on the chosen node -/

/-- One step of the best-node fold only ever stores eligible nodes. -/
theorem pickBestNodeStep_eligible (i : Instance) (acc : Option (Nat × Node))
    (x : Nat × Node) (h : ∀ q, acc = some q → nodeEligible i q.2 = true) :
    ∀ q, pickBestNodeStep i acc x = some q → nodeEligible i q.2 = true := by
  intro q hq
  unfold pickBestNodeStep at hq
  by_cases he : nodeEligible i x.2 = true
  · rw [if_pos he] at hq
    cases acc with
    | none =>
      have hxq : x = q := by simpa using hq
      exact hxq ▸ he
    | some b =>
      by_cases hb : nodeBetter x.2 b.2 = true
      · simp only [hb, if_true] at hq
        have hxq : x = q := by simpa using hq
        exact hxq ▸ he
      · simp only [hb, if_false] at hq
        exact h q hq
  · rw [if_neg he] at hq
    exact h q hq

/-- The best-node fold only ever returns eligible nodes. -/
theorem foldl_pickBest_eligible (i : Instance) :
    ∀ (l : List (Nat × Node)) (acc : Option (Nat × Node)),
    (∀ q, acc = some q → nodeEligible i q.2 = true) →
    ∀ q, l.foldl (pickBestNodeStep i) acc = some q → nodeEligible i q.2 = true := by
  intro l
  induction l with
  | nil =>
    intro acc h q hq
    exact h q (by simpa using hq)
  | cons x xs ih =>
    intro acc h q hq
    rw [List.foldl_cons] at hq
    exact ih _ (pickBestNodeStep_eligible i acc x h) q hq

/-- C10 (amended) — whenever the placement pass has chosen a best node for an
instance, *some* storage pool on that node passing the pinned-pool filter
satisfies `max(pool.allocated, pool.used) + disk_size ≤ pool.total` (this is
the eligibility witness; the claim's universal version — every matching pool
satisfying `max(allocated, used) ≤ total` — does not hold, see the
counterexample). -/
theorem chosen_node_pool_guard (i : Instance) (nodes : List Node) (nidx : Nat)
    (n : Node) (h : pickBestNode i nodes = some (nidx, n)) :
    ∃ p ∈ n.storage_pools, poolPinMatch i p = true
      ∧ max p.allocated p.used + i.disk_size ≤ p.total := by
  have helig : nodeEligible i n = true :=
    foldl_pickBest_eligible i nodes.enum none (by intro q hq; cases hq) (nidx, n) h
  unfold nodeEligible at helig
  simp only [Bool.and_eq_true] at helig
  obtain ⟨⟨⟨_, _⟩, _⟩, hany⟩ := helig
  rcases List.any_eq_true.mp hany with ⟨p, hp, hcond⟩
  simp only [Bool.and_eq_true] at hcond
  exact ⟨p, hp, hcond.1, by simpa using hcond.2⟩

/-- Witness for the amended C10 at the concrete fixture. -/
theorem chosen_node_pool_guard_witness :
    pickBestNode badPoolInstance [badPoolNode] = some (0, badPoolNode)
    ∧ ∃ p ∈ badPoolNode.storage_pools, poolPinMatch badPoolInstance p = true
      ∧ max p.allocated p.used + badPoolInstance.disk_size ≤ p.total :=
  ⟨rfl, chosen_node_pool_guard badPoolInstance [badPoolNode] 0 badPoolNode rfl⟩

/-! ## C4: IP uniqueness -/

/-- Rotate the first two blocks of a three-block concatenation (Nodup is
permutation-invariant). -/
theorem nodup_rotate {a b c : List α} (h : (a ++ (b ++ c)).Nodup) :
    (b ++ (a ++ c)).Nodup := by
  have h1 : ((a ++ b) ++ c).Nodup := by rwa [List.append_assoc]
  have h2 : ((b ++ a) ++ c).Nodup :=
    (((@List.perm_append_comm _ a b).append_right c).nodup_iff).mp h1
  rwa [List.append_assoc] at h2

/-- Invariant of the per-instance IP-assignment loop: with every assigned IP
(of the whole state) pre-inserted into `allocated`, the pass keeps the
combined IP list duplicate-free, keeps `allocated` a superset of it, only
grows `allocated`, and draws every fresh IP from the pool. -/
theorem allocInstances_inv (pool : List String) :
    ∀ (is : List Instance) (allocated rest : List String),
    ((is.filterMap (·.external_ip)) ++ rest).Nodup →
    (∀ ip ∈ (is.filterMap (·.external_ip)) ++ rest, ip ∈ allocated) →
    (((allocInstances pool is allocated).1.filterMap (·.external_ip)) ++ rest).Nodup
    ∧ (∀ ip ∈ ((allocInstances pool is allocated).1.filterMap (·.external_ip)) ++ rest,
        ip ∈ (allocInstances pool is allocated).2.1)
    ∧ (∀ ip ∈ allocated, ip ∈ (allocInstances pool is allocated).2.1)
    ∧ (∀ ip ∈ (allocInstances pool is allocated).1.filterMap (·.external_ip),
        ip ∈ is.filterMap (·.external_ip) ∨ ip ∈ pool) := by
  intro is
  induction is with
  | nil =>
    intro allocated rest hnd hsub
    unfold allocInstances
    exact ⟨hnd, hsub, fun ip hip => hip, fun ip hip => absurd hip (by simp)⟩
  | cons i tl ih =>
    intro allocated rest hnd hsub
    unfold allocInstances
    by_cases hc : ((i.runtime = .Lxc || i.runtime = .Kvm) && i.external_ip.isNone) = true
    · rw [if_pos hc]
      have hnone : i.external_ip = none := by
        have := (Bool.and_eq_true _ _).mp hc
        exact Option.isNone_iff_eq_none.mp this.2
      have hfm : (i :: tl).filterMap (·.external_ip) = tl.filterMap (·.external_ip) := by
        simp [List.filterMap_cons, hnone]
      rw [hfm] at hnd hsub
      cases hfind : pool.find? (fun ip => !allocated.contains ip) with
      | some ip =>
        simp only
        have hip_not : ip ∉ allocated := by
          have := List.find?_some hfind
          simpa using this
        have hip_pool : ip ∈ pool := List.mem_of_find?_eq_some hfind
        have hip_fresh : ip ∉ (tl.filterMap (·.external_ip)) ++ rest := by
          intro hmem
          exact hip_not (hsub ip hmem)
        have hnd' : ((tl.filterMap (·.external_ip)) ++ (ip :: rest)).Nodup :=
          List.nodup_middle.mpr (List.nodup_cons.mpr ⟨hip_fresh, hnd⟩)
        have hsub' : ∀ x ∈ (tl.filterMap (·.external_ip)) ++ (ip :: rest),
            x ∈ ip :: allocated := by
          intro x hx
          rcases List.mem_append.mp hx with hx | hx
          · exact List.mem_cons_of_mem _ (hsub x (List.mem_append.mpr (.inl hx)))
          · rcases List.mem_cons.mp hx with hx | hx
            · exact hx ▸ List.mem_cons_self _ _
            · exact List.mem_cons_of_mem _ (hsub x (List.mem_append.mpr (.inr hx)))
        obtain ⟨ih1, ih2, ih3, ih4⟩ := ih (ip :: allocated) (ip :: rest) hnd' hsub'
        have hfmres : (({ i with external_ip := some ip } ::
            (allocInstances pool tl (ip :: allocated)).1).filterMap (·.external_ip))
            = ip :: (allocInstances pool tl (ip :: allocated)).1.filterMap (·.external_ip) := by
          simp [List.filterMap_cons]
        refine ⟨?_, ?_, ?_, ?_⟩
        · rw [hfmres]
          show (ip :: ((allocInstances pool tl (ip :: allocated)).1.filterMap
            (·.external_ip) ++ rest)).Nodup
          have := List.nodup_middle.mp ih1
          exact this
        · intro x hx
          rw [hfmres] at hx
          refine ih2 x ?_
          rcases List.mem_append.mp hx with hx | hx
          · rcases List.mem_cons.mp hx with hx | hx
            · exact List.mem_append.mpr (.inr (hx ▸ List.mem_cons_self _ _))
            · exact List.mem_append.mpr (.inl hx)
          · exact List.mem_append.mpr (.inr (List.mem_cons_of_mem _ hx))
        · intro x hx
          exact ih3 x (List.mem_cons_of_mem _ hx)
        · intro x hx
          rw [hfmres] at hx
          rcases List.mem_cons.mp hx with hx | hx
          · exact .inr (hx ▸ hip_pool)
          · rcases ih4 x hx with hx | hx
            · exact .inl (by rw [hfm]; exact hx)
            · exact .inr hx
      | none =>
        simp only
        rw [hfm]
        exact ⟨hnd, hsub, fun ip hip => hip, fun ip hip => .inl hip⟩
    · rw [if_neg hc]
      simp only
      cases hext : i.external_ip with
      | some ip0 =>
        have hfm : (i :: tl).filterMap (·.external_ip)
            = ip0 :: tl.filterMap (·.external_ip) := by
          simp [List.filterMap_cons, hext]
        rw [hfm] at hnd hsub
        have hnd' : ((tl.filterMap (·.external_ip)) ++ (ip0 :: rest)).Nodup :=
          List.nodup_middle.mpr (by simpa using hnd)
        have hsub' : ∀ x ∈ (tl.filterMap (·.external_ip)) ++ (ip0 :: rest),
            x ∈ allocated := by
          intro x hx
          rcases List.mem_append.mp hx with hx | hx
          · exact hsub x (List.mem_cons_of_mem _ (List.mem_append.mpr (.inl hx)))
          · rcases List.mem_cons.mp hx with hx | hx
            · exact hsub x (hx ▸ List.mem_cons_self _ _)
            · exact hsub x (List.mem_cons_of_mem _ (List.mem_append.mpr (.inr hx)))
        obtain ⟨ih1, ih2, ih3, ih4⟩ := ih allocated (ip0 :: rest) hnd' hsub'
        have hfmres : ((i :: (allocInstances pool tl allocated).1).filterMap (·.external_ip))
            = ip0 :: (allocInstances pool tl allocated).1.filterMap (·.external_ip) := by
          simp [List.filterMap_cons, hext]
        refine ⟨?_, ?_, ?_, ?_⟩
        · rw [hfmres]
          show (ip0 :: ((allocInstances pool tl allocated).1.filterMap
            (·.external_ip) ++ rest)).Nodup
          exact List.nodup_middle.mp ih1
        · intro x hx
          rw [hfmres] at hx
          refine ih2 x ?_
          rcases List.mem_append.mp hx with hx | hx
          · rcases List.mem_cons.mp hx with hx | hx
            · exact List.mem_append.mpr (.inr (hx ▸ List.mem_cons_self _ _))
            · exact List.mem_append.mpr (.inl hx)
          · exact List.mem_append.mpr (.inr (List.mem_cons_of_mem _ hx))
        · exact ih3
        · intro x hx
          rw [hfmres] at hx
          rcases List.mem_cons.mp hx with hx | hx
          · exact .inl (by rw [hfm]; exact hx ▸ List.mem_cons_self _ _)
          · rcases ih4 x hx with hx | hx
            · exact .inl (by rw [hfm]; exact List.mem_cons_of_mem _ hx)
            · exact .inr hx
      | none =>
        have hfm : (i :: tl).filterMap (·.external_ip) = tl.filterMap (·.external_ip) := by
          simp [List.filterMap_cons, hext]
        rw [hfm] at hnd hsub
        obtain ⟨ih1, ih2, ih3, ih4⟩ := ih allocated rest hnd hsub
        have hfmres : ((i :: (allocInstances pool tl allocated).1).filterMap (·.external_ip))
            = (allocInstances pool tl allocated).1.filterMap (·.external_ip) := by
          simp [List.filterMap_cons, hext]
        refine ⟨?_, ?_, ?_, ?_⟩
        · rw [hfmres]; exact ih1
        · intro x hx
          rw [hfmres] at hx
          exact ih2 x hx
        · exact ih3
        · intro x hx
          rw [hfmres] at hx
          rcases ih4 x hx with hx | hx
          · exact .inl (by rw [hfm]; exact hx)
          · exact .inr hx

/-- Invariant of the per-user IP-assignment loop (lifting
`allocInstances_inv` over the user list, threading the allocated set). -/
theorem allocUsers_inv (pool : List String) :
    ∀ (us : List User) (allocated rest : List String),
    ((us.flatMap (fun u => u.instances.filterMap (·.external_ip))) ++ rest).Nodup →
    (∀ ip ∈ (us.flatMap (fun u => u.instances.filterMap (·.external_ip))) ++ rest,
        ip ∈ allocated) →
    (((allocUsers pool us allocated).1.flatMap
        (fun u => u.instances.filterMap (·.external_ip))) ++ rest).Nodup
    ∧ (∀ ip ∈ ((allocUsers pool us allocated).1.flatMap
        (fun u => u.instances.filterMap (·.external_ip))) ++ rest,
        ip ∈ (allocUsers pool us allocated).2.1)
    ∧ (∀ ip ∈ allocated, ip ∈ (allocUsers pool us allocated).2.1)
    ∧ (∀ ip ∈ (allocUsers pool us allocated).1.flatMap
        (fun u => u.instances.filterMap (·.external_ip)),
        ip ∈ us.flatMap (fun u => u.instances.filterMap (·.external_ip)) ∨ ip ∈ pool) := by
  intro us
  induction us with
  | nil =>
    intro allocated rest hnd hsub
    unfold allocUsers
    exact ⟨hnd, hsub, fun ip hip => hip, fun ip hip => absurd hip (by simp)⟩
  | cons u tl ih =>
    intro allocated rest hnd hsub
    rw [List.flatMap_cons, List.append_assoc] at hnd hsub
    obtain ⟨i1, i2, i3, i4⟩ := allocInstances_inv pool u.instances allocated
      (tl.flatMap (fun v => v.instances.filterMap (·.external_ip)) ++ rest) hnd hsub
    unfold allocUsers
    by_cases habort : (allocInstances pool u.instances allocated).2.2 = true
    · rw [if_pos habort]
      refine ⟨?_, ?_, i3, ?_⟩
      · rw [List.flatMap_cons, List.append_assoc]
        exact i1
      · intro ip hip
        rw [List.flatMap_cons, List.append_assoc] at hip
        exact i2 ip hip
      · intro ip hip
        rw [List.flatMap_cons] at hip ⊢
        rcases List.mem_append.mp hip with hip | hip
        · rcases i4 ip hip with hip | hip
          · exact .inl (List.mem_append.mpr (.inl hip))
          · exact .inr hip
        · exact .inl (List.mem_append.mpr (.inr hip))
    · rw [if_neg habort]
      have hnd'' : ((tl.flatMap (fun v => v.instances.filterMap (·.external_ip)))
          ++ ((allocInstances pool u.instances allocated).1.filterMap (·.external_ip)
              ++ rest)).Nodup := nodup_rotate i1
      have hsub'' : ∀ ip ∈ (tl.flatMap (fun v => v.instances.filterMap (·.external_ip)))
          ++ ((allocInstances pool u.instances allocated).1.filterMap (·.external_ip)
              ++ rest), ip ∈ (allocInstances pool u.instances allocated).2.1 := by
        intro ip hip
        refine i2 ip ?_
        rcases List.mem_append.mp hip with hip | hip
        · exact List.mem_append.mpr (.inr (List.mem_append.mpr (.inl hip)))
        · rcases List.mem_append.mp hip with hip | hip
          · exact List.mem_append.mpr (.inl hip)
          · exact List.mem_append.mpr (.inr (List.mem_append.mpr (.inr hip)))
      obtain ⟨j1, j2, j3, j4⟩ := ih (allocInstances pool u.instances allocated).2.1
        ((allocInstances pool u.instances allocated).1.filterMap (·.external_ip) ++ rest)
        hnd'' hsub''
      refine ⟨?_, ?_, ?_, ?_⟩
      · rw [List.flatMap_cons, List.append_assoc]
        exact nodup_rotate j1
      · intro ip hip
        rw [List.flatMap_cons, List.append_assoc] at hip
        refine j2 ip ?_
        rcases List.mem_append.mp hip with hip | hip
        · exact List.mem_append.mpr (.inr (List.mem_append.mpr (.inl hip)))
        · rcases List.mem_append.mp hip with hip | hip
          · exact List.mem_append.mpr (.inl hip)
          · exact List.mem_append.mpr (.inr (List.mem_append.mpr (.inr hip)))
      · intro ip hip
        exact j3 ip (i3 ip hip)
      · intro ip hip
        rw [List.flatMap_cons] at hip ⊢
        rcases List.mem_append.mp hip with hip | hip
        · rcases i4 ip hip with hip | hip
          · exact .inl (List.mem_append.mpr (.inl hip))
          · exact .inr hip
        · rcases j4 ip hip with hip | hip
          · exact .inl (List.mem_append.mpr (.inr hip))
          · exact .inr hip

/-- One run of the IP allocation pass keeps assigned IPs duplicate-free, and
every IP it assigns comes from the pool. -/
theorem allocate_ip_inv (pool : List String) (s : State) (h : (ipsOf s).Nodup) :
    (ipsOf (Scheduler.allocate_ip pool s)).Nodup
    ∧ ∀ ip ∈ ipsOf (Scheduler.allocate_ip pool s), ip ∈ ipsOf s ∨ ip ∈ pool := by
  obtain ⟨h1, _, _, h4⟩ := allocUsers_inv pool s.users (ipsOf s) []
    (by rw [List.append_nil]; exact h)
    (by intro ip hip; rw [List.append_nil] at hip; exact hip)
  constructor
  · rw [List.append_nil] at h1
    exact h1
  · intro ip hip
    exact h4 ip hip

/-- Iterated runs of the IP allocation pass, one shuffled pool per cycle. -/
def iterateAllocate (pools : List (List String)) (s : State) : State :=
  pools.foldl (fun s p => Scheduler.allocate_ip p s) s

/-- C4 — confirmed (as an inductive invariant): if no two instances share an
`external_ip` in the starting state, then after any number of runs of the
Scheduler's IP allocation pass (each with its shuffled copy of the configured
pool `P`) no two instances share an `external_ip`, and every assigned
`external_ip` either predates the runs or is an element of `P`. -/
theorem ip_uniqueness (pools : List (List String)) (P : List String) (s : State)
    (hp : ∀ p ∈ pools, ∀ ip ∈ p, ip ∈ P) (h : (ipsOf s).Nodup) :
    (ipsOf (iterateAllocate pools s)).Nodup
    ∧ ∀ ip ∈ ipsOf (iterateAllocate pools s), ip ∈ ipsOf s ∨ ip ∈ P := by
  induction pools generalizing s with
  | nil => exact ⟨h, fun ip hip => .inl hip⟩
  | cons p ps ih =>
    obtain ⟨h1, h2⟩ := allocate_ip_inv p s h
    obtain ⟨h3, h4⟩ := ih (Scheduler.allocate_ip p s)
      (fun q hq => hp q (List.mem_cons_of_mem _ hq)) h1
    refine ⟨h3, ?_⟩
    intro ip hip
    rcases h4 ip hip with hin | hin
    · rcases h2 ip hin with hin2 | hin2
      · exact .inl hin2
      · exact .inr (hp p (List.mem_cons_self _ _) ip hin2)
    · exact .inr hin

/-- Witness for C4 at a concrete state and pool. -/
theorem ip_uniqueness_witness :
    (∀ p ∈ [["10.0.0.1"]], ∀ ip ∈ p, ip ∈ ["10.0.0.1"])
    ∧ (ipsOf aliceState).Nodup
    ∧ ((ipsOf (iterateAllocate [["10.0.0.1"]] aliceState)).Nodup
      ∧ ∀ ip ∈ ipsOf (iterateAllocate [["10.0.0.1"]] aliceState),
        ip ∈ ipsOf aliceState ∨ ip ∈ ["10.0.0.1"]) :=
  ⟨by decide, by decide,
   ip_uniqueness [["10.0.0.1"]] ["10.0.0.1"] aliceState (by decide) (by decide)⟩

/-- Witness for the amended C6 at a concrete state (instance `nosuch` does
not exist; the handler succeeds with the state unchanged). -/
theorem update_preconditions_witness :
    update_instance "alice" "nosuch" ⟨some 4, none, none⟩ aliceState = (aliceState, none) :=
  (update_preconditions "alice" "nosuch" ⟨some 4, none, none⟩ aliceState
    (by decide) (by decide) (fun rs h => by simp at h)).2.1 _ rfl rfl

/-- Witness for the amended C7 at concrete inputs (no user `nobody` exists,
so both write-backs leave the state unchanged). -/
theorem writeback_guards_witness :
    k8sWriteBack "nobody" "w" .Running
      ⟨.Running, none, none, none, none, none, none, false⟩ c7state = (c7state, false)
    ∧ lxdUpdateInstanceStatus "nobody" c7snapshot false "Running" none c7state = c7state :=
  ⟨writeback_guards.1 "nobody" "w" .Running _ c7state
    (fun u hu => by
      have hn : c7state.find_user "nobody" = none := rfl
      rw [hn] at hu
      exact Option.noConfusion hu),
   writeback_guards.2 "nobody" c7snapshot false "Running" none c7state
    (fun u hu => by
      have hn : c7state.find_user "nobody" = none := rfl
      rw [hn] at hu
      exact Option.noConfusion hu)⟩

/-! ## C8: the collector merge -/

/-- The push-if-missing runtime accumulation keeps the list duplicate-free
and realizes set union. -/
theorem dedupRuntimes_spec :
    ∀ (rs : List Runtime) (acc : List Runtime), acc.Nodup →
    (dedupRuntimes acc rs).Nodup
    ∧ ∀ r, r ∈ dedupRuntimes acc rs ↔ r ∈ acc ∨ r ∈ rs := by
  intro rs
  induction rs with
  | nil =>
    intro acc h
    exact ⟨h, by simp [dedupRuntimes]⟩
  | cons r0 tl ih =>
    intro acc h
    have he : dedupRuntimes acc (r0 :: tl)
        = dedupRuntimes (if acc.contains r0 then acc else acc ++ [r0]) tl := by
      rw [dedupRuntimes, dedupRuntimes, List.foldl_cons]
    by_cases hc : acc.contains r0 = true
    · have hmem : r0 ∈ acc := by simpa using hc
      rw [he, if_pos hc]
      obtain ⟨ih1, ih2⟩ := ih acc h
      refine ⟨ih1, fun r => ?_⟩
      rw [ih2 r]
      constructor
      · rintro (hr | hr)
        · exact .inl hr
        · exact .inr (List.mem_cons_of_mem _ hr)
      · rintro (hr | hr)
        · exact .inl hr
        · rcases List.mem_cons.mp hr with hr | hr
          · exact .inl (hr ▸ hmem)
          · exact .inr hr
    · have hnotmem : r0 ∉ acc := by simpa using hc
      rw [he, if_neg hc]
      have hnd : (acc ++ [r0]).Nodup := by
        simp [List.nodup_append, h, hnotmem]
      obtain ⟨ih1, ih2⟩ := ih (acc ++ [r0]) hnd
      refine ⟨ih1, fun r => ?_⟩
      rw [ih2 r]
      simp only [List.mem_append, List.mem_singleton, List.mem_cons]
      tauto

/-- The push-if-missing (by name) pool accumulation keeps pool names
duplicate-free, only copies pools from the input, and realizes union of the
name sets. -/
theorem dedupPools_spec :
    ∀ (ps : List StoragePool) (acc : List StoragePool), (acc.map (·.name)).Nodup →
    ((dedupPools acc ps).map (·.name)).Nodup
    ∧ (∀ p ∈ dedupPools acc ps, p ∈ acc ∨ p ∈ ps)
    ∧ ∀ pn, (∃ p ∈ dedupPools acc ps, p.name = pn)
        ↔ (∃ p ∈ acc, p.name = pn) ∨ (∃ p ∈ ps, p.name = pn) := by
  intro ps
  induction ps with
  | nil =>
    intro acc h
    refine ⟨h, fun p hp => .inl hp, fun pn => ?_⟩
    simp [dedupPools]
  | cons p0 tl ih =>
    intro acc h
    have he : dedupPools acc (p0 :: tl)
        = dedupPools (if acc.any (fun q => q.name = p0.name) then acc else acc ++ [p0]) tl := by
      rw [dedupPools, dedupPools, List.foldl_cons]
    by_cases hc : acc.any (fun q => q.name = p0.name) = true
    · have hmem : ∃ q ∈ acc, q.name = p0.name := by simpa using List.any_eq_true.mp hc
      rw [he, if_pos hc]
      obtain ⟨ih1, ih2, ih3⟩ := ih acc h
      refine ⟨ih1, ?_, fun pn => ?_⟩
      · intro p hp
        rcases ih2 p hp with hp | hp
        · exact .inl hp
        · exact .inr (List.mem_cons_of_mem _ hp)
      · rw [ih3 pn]
        constructor
        · rintro (hr | hr)
          · exact .inl hr
          · obtain ⟨q, hq, hqn⟩ := hr
            exact .inr ⟨q, List.mem_cons_of_mem _ hq, hqn⟩
        · rintro (hr | hr)
          · exact .inl hr
          · obtain ⟨q, hq, hqn⟩ := hr
            rcases List.mem_cons.mp hq with hq | hq
            · obtain ⟨w, hw, hwn⟩ := hmem
              exact .inl ⟨w, hw, by rw [hwn, ← hq, hqn]⟩
            · exact .inr ⟨q, hq, hqn⟩
    · have hnotmem : ∀ q ∈ acc, q.name ≠ p0.name := by
        intro q hq hqe
        exact hc (List.any_eq_true.mpr ⟨q, hq, by simpa using hqe⟩)
      rw [he, if_neg hc]
      have hnd : ((acc ++ [p0]).map (·.name)).Nodup := by
        rw [List.map_append]
        simp only [List.map_cons, List.map_nil]
        refine List.Nodup.append h (by simp) ?_
        intro a ha hb
        simp only [List.mem_singleton] at hb
        rcases List.mem_map.mp ha with ⟨q, hq, hqa⟩
        exact hnotmem q hq (by rw [hqa, hb])
      obtain ⟨ih1, ih2, ih3⟩ := ih (acc ++ [p0]) hnd
      refine ⟨ih1, ?_, fun pn => ?_⟩
      · intro p hp
        rcases ih2 p hp with hp | hp
        · rcases List.mem_append.mp hp with hp | hp
          · exact .inl hp
          · exact .inr (by rw [List.mem_singleton.mp hp]; exact List.mem_cons_self p0 tl)
        · exact .inr (List.mem_cons_of_mem _ hp)
      · rw [ih3 pn]
        simp only [List.mem_append, List.mem_singleton, List.mem_cons]
        aesop

/-- The `cpu_total`/`memory_total` accumulation computes the minimum positive
entry (relative to the running accumulator). -/
theorem minPosFold_spec :
    ∀ (l : List Nat) (acc : Nat),
    (l.foldl minPosStep acc = 0 → acc = 0 ∧ ∀ x ∈ l, x = 0)
    ∧ (0 < l.foldl minPosStep acc →
        (l.foldl minPosStep acc = acc ∨ l.foldl minPosStep acc ∈ l)
        ∧ (0 < acc → l.foldl minPosStep acc ≤ acc)
        ∧ ∀ x ∈ l, 0 < x → l.foldl minPosStep acc ≤ x) := by
  intro l
  induction l with
  | nil =>
    intro acc
    constructor
    · intro h
      exact ⟨h, by simp⟩
    · intro _
      exact ⟨.inl rfl, fun _ => le_refl _, by simp⟩
  | cons x0 tl ih =>
    intro acc
    rw [List.foldl_cons]
    obtain ⟨ihz, ihp⟩ := ih (minPosStep acc x0)
    have hcond : minPosStep acc x0 = x0 ∨
        (minPosStep acc x0 = acc ∧ ¬(acc = 0) ∧ (x0 = 0 ∨ acc ≤ x0)) := by
      unfold minPosStep
      by_cases hc : (decide (acc = 0) || (decide (x0 > 0) && decide (x0 < acc))) = true
      · rw [if_pos hc]
        exact .inl rfl
      · rw [if_neg hc]
        simp only [Bool.or_eq_true, Bool.and_eq_true, decide_eq_true_eq, not_or, not_and] at hc
        refine .inr ⟨rfl, hc.1, ?_⟩
        by_cases hx : x0 = 0
        · exact .inl hx
        · exact .inr (Nat.le_of_not_lt (hc.2 (Nat.pos_of_ne_zero hx)))
    have hstep_le : minPosStep acc x0 = x0 →
        (decide (acc = 0) || (decide (x0 > 0) && decide (x0 < acc))) = true ∨ x0 = acc := by
      intro hs
      unfold minPosStep at hs
      by_cases hc : (decide (acc = 0) || (decide (x0 > 0) && decide (x0 < acc))) = true
      · exact .inl hc
      · rw [if_neg hc] at hs
        exact .inr hs.symm
    rcases hcond with hs | ⟨hs, haccne, hxa⟩
    · rw [hs] at ihz ihp ⊢
      constructor
      · intro h0
        obtain ⟨hx0, htl⟩ := ihz h0
        have hcases := hstep_le hs
        have haz : acc = 0 := by
          rcases hcases with hc | hc
          · simp only [Bool.or_eq_true, Bool.and_eq_true, decide_eq_true_eq] at hc
            rcases hc with hc | hc
            · exact hc
            · omega
          · omega
        refine ⟨haz, ?_⟩
        intro y hy
        rcases List.mem_cons.mp hy with hy | hy
        · exact hy ▸ hx0
        · exact htl y hy
      · intro hpos
        obtain ⟨hmem, hacc, hbound⟩ := ihp hpos
        refine ⟨?_, ?_, ?_⟩
        · rcases hmem with hm | hm
          · exact .inr (by rw [hm]; exact List.mem_cons_self _ _)
          · exact .inr (List.mem_cons_of_mem _ hm)
        · intro haccpos
          have hcases := hstep_le hs
          rcases hcases with hc | hc
          · simp only [Bool.or_eq_true, Bool.and_eq_true, decide_eq_true_eq] at hc
            rcases hc with hc | hc
            · omega
            · exact le_trans (hacc hc.1) (le_of_lt hc.2)
          · exact hc ▸ hacc (hc ▸ haccpos)
        · intro y hy hypos
          rcases List.mem_cons.mp hy with hy | hy
          · subst hy
            exact hacc hypos
          · exact hbound y hy hypos
    · rw [hs] at ihz ihp ⊢
      constructor
      · intro h0
        obtain ⟨haz, _⟩ := ihz h0
        exact absurd haz haccne
      · intro hpos
        obtain ⟨hmem, hacc, hbound⟩ := ihp hpos
        refine ⟨?_, hacc, ?_⟩
        · rcases hmem with hm | hm
          · exact .inl hm
          · exact .inr (List.mem_cons_of_mem _ hm)
        · intro y hy hypos
          rcases List.mem_cons.mp hy with hy | hy
          · subst hy
            have hle : acc ≤ y := by
              rcases hxa with h | h
              · omega
              · exact h
            exact le_trans (hacc (Nat.pos_of_ne_zero haccne)) hle
          · exact hbound y hy hypos

/-- Runtime union over a whole group of records. -/
theorem groupRuntimes_spec :
    ∀ (g : List Node) (acc : List Runtime), acc.Nodup →
    (g.foldl (fun acc n => dedupRuntimes acc n.runtimes) acc).Nodup
    ∧ ∀ r, r ∈ g.foldl (fun acc n => dedupRuntimes acc n.runtimes) acc
        ↔ r ∈ acc ∨ ∃ rec ∈ g, r ∈ rec.runtimes := by
  intro g
  induction g with
  | nil =>
    intro acc h
    exact ⟨h, by simp⟩
  | cons n tl ih =>
    intro acc h
    rw [List.foldl_cons]
    obtain ⟨d1, d2⟩ := dedupRuntimes_spec n.runtimes acc h
    obtain ⟨i1, i2⟩ := ih (dedupRuntimes acc n.runtimes) d1
    refine ⟨i1, fun r => ?_⟩
    rw [i2 r, d2 r]
    simp only [List.mem_cons]
    constructor
    · rintro ((h' | h') | ⟨rec, hrec, hr⟩)
      · exact .inl h'
      · exact .inr ⟨n, .inl rfl, h'⟩
      · exact .inr ⟨rec, .inr hrec, hr⟩
    · rintro (h' | ⟨rec, hrec | hrec, hr⟩)
      · exact .inl (.inl h')
      · exact .inl (.inr (hrec ▸ hr))
      · exact .inr ⟨rec, hrec, hr⟩

/-- Pool union (by name) over a whole group of records. -/
theorem groupPools_spec :
    ∀ (g : List Node) (acc : List StoragePool), (acc.map (·.name)).Nodup →
    ((g.foldl (fun acc n => dedupPools acc n.storage_pools) acc).map (·.name)).Nodup
    ∧ (∀ p ∈ g.foldl (fun acc n => dedupPools acc n.storage_pools) acc,
        p ∈ acc ∨ ∃ rec ∈ g, p ∈ rec.storage_pools)
    ∧ ∀ pn, (∃ p ∈ g.foldl (fun acc n => dedupPools acc n.storage_pools) acc, p.name = pn)
        ↔ (∃ p ∈ acc, p.name = pn) ∨ ∃ rec ∈ g, ∃ p ∈ rec.storage_pools, p.name = pn := by
  intro g
  induction g with
  | nil =>
    intro acc h
    exact ⟨h, fun p hp => .inl hp, by simp⟩
  | cons n tl ih =>
    intro acc h
    rw [List.foldl_cons]
    obtain ⟨d1, d2, d3⟩ := dedupPools_spec n.storage_pools acc h
    obtain ⟨i1, i2, i3⟩ := ih (dedupPools acc n.storage_pools) d1
    refine ⟨i1, ?_, fun pn => ?_⟩
    · intro p hp
      rcases i2 p hp with hp | ⟨rec, hrec, hr⟩
      · rcases d2 p hp with hp | hp
        · exact .inl hp
        · exact .inr ⟨n, List.mem_cons_self _ _, hp⟩
      · exact .inr ⟨rec, List.mem_cons_of_mem _ hrec, hr⟩
    · rw [i3 pn, d3 pn]
      simp only [List.mem_cons]
      constructor
      · rintro ((h' | h') | ⟨rec, hrec, hr⟩)
        · exact .inl h'
        · exact .inr ⟨n, .inl rfl, h'⟩
        · exact .inr ⟨rec, .inr hrec, hr⟩
      · rintro (h' | ⟨rec, hrec | hrec, hr⟩)
        · exact .inl (.inl h')
        · exact .inl (.inr (hrec ▸ hr))
        · exact .inr ⟨rec, hrec, hr⟩

/-- Field-level facts about merging one group of records. -/
theorem mergeGroup_spec (ocC ocM : Nat → Nat) (nm : String) (g : List Node) :
    (mergeGroup ocC ocM nm g).name = nm
    ∧ (mergeGroup ocC ocM nm g).runtimes.Nodup
    ∧ (∀ r, r ∈ (mergeGroup ocC ocM nm g).runtimes ↔ ∃ rec ∈ g, r ∈ rec.runtimes)
    ∧ ((mergeGroup ocC ocM nm g).storage_pools.map (·.name)).Nodup
    ∧ (∀ p ∈ (mergeGroup ocC ocM nm g).storage_pools, ∃ rec ∈ g, p ∈ rec.storage_pools)
    ∧ (∀ pn, (∃ p ∈ (mergeGroup ocC ocM nm g).storage_pools, p.name = pn)
        ↔ ∃ rec ∈ g, ∃ p ∈ rec.storage_pools, p.name = pn)
    ∧ (∃ v, (mergeGroup ocC ocM nm g).cpu_total = ocC v
        ∧ ((v = 0 ∧ ∀ x ∈ g.map (·.cpu_total), x = 0)
          ∨ (v ∈ g.map (·.cpu_total) ∧ 0 < v ∧ ∀ x ∈ g.map (·.cpu_total), 0 < x → v ≤ x)))
    ∧ (∃ v, (mergeGroup ocC ocM nm g).memory_total = ocM v
        ∧ ((v = 0 ∧ ∀ x ∈ g.map (·.memory_total), x = 0)
          ∨ (v ∈ g.map (·.memory_total) ∧ 0 < v
            ∧ ∀ x ∈ g.map (·.memory_total), 0 < x → v ≤ x)))
    ∧ (mergeGroup ocC ocM nm g).storage_total
        = ((mergeGroup ocC ocM nm g).storage_pools.map (·.total)).sum
    ∧ (mergeGroup ocC ocM nm g).storage_used
        = ((mergeGroup ocC ocM nm g).storage_pools.map (·.used)).sum := by
  obtain ⟨r1, r2⟩ := groupRuntimes_spec g [] (by simp)
  obtain ⟨p1, p2, p3⟩ := groupPools_spec g [] (by simp)
  have hminchar : ∀ (f : Node → Nat),
      ∃ v, g.foldl (fun acc n => minPosStep acc (f n)) 0 = v
        ∧ ((v = 0 ∧ ∀ x ∈ g.map f, x = 0)
          ∨ (v ∈ g.map f ∧ 0 < v ∧ ∀ x ∈ g.map f, 0 < x → v ≤ x)) := by
    intro f
    have hfold : (g.map f).foldl minPosStep 0
        = g.foldl (fun acc n => minPosStep acc (f n)) 0 := List.foldl_map f minPosStep g 0
    obtain ⟨hz, hp⟩ := minPosFold_spec (g.map f) 0
    refine ⟨(g.map f).foldl minPosStep 0, hfold.symm, ?_⟩
    rcases Nat.eq_zero_or_pos ((g.map f).foldl minPosStep 0) with h0 | hpos
    · obtain ⟨_, hall⟩ := hz h0
      exact .inl ⟨h0, hall⟩
    · obtain ⟨hmem, _, hbound⟩ := hp hpos
      rcases hmem with hm | hm
      · omega
      · exact .inr ⟨hm, hpos, hbound⟩
  refine ⟨rfl, r1, ?_, p1, ?_, ?_, ?_, ?_, rfl, rfl⟩
  · intro r
    show r ∈ g.foldl (fun acc n => dedupRuntimes acc n.runtimes) [] ↔ _
    rw [r2 r]
    simp
  · intro p hp
    rcases p2 p hp with hp | hp
    · exact absurd hp (by simp)
    · exact hp
  · intro pn
    show (∃ p ∈ g.foldl (fun acc n => dedupPools acc n.storage_pools) [], p.name = pn) ↔ _
    rw [p3 pn]
    simp
  · obtain ⟨v, hv, hchar⟩ := hminchar (·.cpu_total)
    exact ⟨v, by rw [show (mergeGroup ocC ocM nm g).cpu_total
      = ocC (g.foldl (fun acc n => minPosStep acc n.cpu_total) 0) from rfl, hv], hchar⟩
  · obtain ⟨v, hv, hchar⟩ := hminchar (·.memory_total)
    exact ⟨v, by rw [show (mergeGroup ocC ocM nm g).memory_total
      = ocM (g.foldl (fun acc n => minPosStep acc n.memory_total) 0) from rfl, hv], hchar⟩

/-- On a name-sorted tail bounded below by `n.name`, the `takeWhile` run of
`n.name` captures exactly the records named `n.name`, and everything after it
has a different name. -/
theorem sorted_group_split (n : Node) (rest : List Node)
    (hsort : rest.Pairwise (fun a b : Node => a.name ≤ b.name))
    (hbound : ∀ m ∈ rest, n.name ≤ m.name) :
    rest.takeWhile (fun m => m.name = n.name) = rest.filter (fun m => m.name = n.name)
    ∧ ∀ m ∈ rest.dropWhile (fun m => m.name = n.name), m.name ≠ n.name := by
  induction rest with
  | nil => exact ⟨rfl, by simp⟩
  | cons x xs ih =>
    obtain ⟨hx_le, hsort'⟩ := List.pairwise_cons.mp hsort
    by_cases hx : x.name = n.name
    · have hbound' : ∀ m ∈ xs, n.name ≤ m.name := fun m hm => hx ▸ hx_le m hm
      obtain ⟨ih1, ih2⟩ := ih hsort' hbound'
      constructor
      · rw [List.takeWhile_cons, List.filter_cons]
        simp [hx, ih1]
      · rw [List.dropWhile_cons]
        simpa [hx] using ih2
    · have hnx : n.name < x.name :=
        lt_of_le_of_ne (hbound x (List.mem_cons_self _ _)) (fun h => hx h.symm)
      have hall : ∀ m ∈ x :: xs, m.name ≠ n.name := by
        intro m hm
        rcases List.mem_cons.mp hm with hm | hm
        · exact hm ▸ hx
        · intro hc
          have hxm := hx_le m hm
          rw [hc] at hxm
          exact absurd (lt_of_lt_of_le hnx hxm) (lt_irrefl _)
      constructor
      · rw [List.takeWhile_cons]
        simp only [hx, decide_eq_true_eq, if_false]
        exact (List.filter_eq_nil_iff.mpr (fun a ha => by simpa using hall a ha)).symm
      · rw [List.dropWhile_cons]
        simp only [hx, decide_eq_true_eq, if_false]
        exact hall

/-- Structure of `mergeNodes` on a name-sorted record list: the output names
are exactly the distinct input names, and each output node is the merge of
the input records bearing its name. -/
theorem mergeNodes_spec (ocC ocM : Nat → Nat) :
    ∀ (k : Nat) (l : List Node), l.length ≤ k →
    l.Pairwise (fun a b : Node => a.name ≤ b.name) →
    ((mergeNodes ocC ocM l).map (·.name)).Nodup
    ∧ (∀ nm, nm ∈ (mergeNodes ocC ocM l).map (·.name) ↔ nm ∈ l.map (·.name))
    ∧ ∀ m ∈ mergeNodes ocC ocM l,
        m = mergeGroup ocC ocM m.name (l.filter (fun rec => rec.name = m.name)) := by
  intro k
  induction k with
  | zero =>
    intro l hlen hsort
    have hnil : l = [] := List.eq_nil_of_length_eq_zero (Nat.le_zero.mp hlen)
    subst hnil
    exact ⟨by simp [mergeNodes], by simp [mergeNodes], by simp [mergeNodes]⟩
  | succ k ih =>
    intro l hlen hsort
    cases l with
    | nil => exact ⟨by simp [mergeNodes], by simp [mergeNodes], by simp [mergeNodes]⟩
    | cons n rest =>
      obtain ⟨hx_le, hsort'⟩ := List.pairwise_cons.mp hsort
      obtain ⟨htake, hdrop⟩ := sorted_group_split n rest hsort' hx_le
      have hme : mergeNodes ocC ocM (n :: rest)
          = mergeGroup ocC ocM n.name (n :: rest.takeWhile (fun m => m.name = n.name))
            :: mergeNodes ocC ocM (rest.dropWhile (fun m => m.name = n.name)) := by
        rw [mergeNodes]
      have hsort'' : (rest.dropWhile (fun m => m.name = n.name)).Pairwise
          (fun a b : Node => a.name ≤ b.name) :=
        hsort'.sublist (List.dropWhile_sublist _)
      have hlen' : (rest.dropWhile (fun m => m.name = n.name)).length ≤ k :=
        le_trans (dropWhile_length_le _ rest) (Nat.succ_le_succ_iff.mp hlen)
      obtain ⟨ih1, ih2, ih3⟩ := ih (rest.dropWhile (fun m => m.name = n.name)) hlen' hsort''
      have hremnames : ∀ nm ∈ (rest.dropWhile (fun m => m.name = n.name)).map (·.name),
          nm ≠ n.name := by
        intro nm hnm
        rcases List.mem_map.mp hnm with ⟨m, hm, hmn⟩
        exact hmn ▸ hdrop m hm
      have hgroupfilter : n :: rest.takeWhile (fun m => m.name = n.name)
          = (n :: rest).filter (fun rec => rec.name = n.name) := by
        rw [List.filter_cons]
        simp [htake]
      have hfilter_other : ∀ nm, nm ≠ n.name →
          (n :: rest).filter (fun rec => rec.name = nm)
            = (rest.dropWhile (fun m => m.name = n.name)).filter
                (fun rec => rec.name = nm) := by
        intro nm hnm
        rw [List.filter_cons]
        have hn : ¬(n.name = nm) := fun h => hnm h.symm
        simp only [hn, decide_eq_true_eq, if_false]
        conv_lhs => rw [← List.takeWhile_append_dropWhile
          (fun m : Node => decide (m.name = n.name)) rest]
        rw [List.filter_append]
        have hnilpart : (rest.takeWhile (fun m : Node => decide (m.name = n.name))).filter
            (fun rec => rec.name = nm) = [] := by
          refine List.filter_eq_nil_iff.mpr (fun a ha => ?_)
          have haname : a.name = n.name := by simpa using List.mem_takeWhile_imp ha
          simp [haname, hn]
        rw [hnilpart, List.nil_append]
      have hnames_eq : (mergeNodes ocC ocM (n :: rest)).map (·.name)
          = n.name :: (mergeNodes ocC ocM (rest.dropWhile
              (fun m => m.name = n.name))).map (·.name) := by
        rw [hme, List.map_cons]
        rfl
      refine ⟨?_, ?_, ?_⟩
      · rw [hnames_eq]
        refine List.nodup_cons.mpr ⟨?_, ih1⟩
        intro hmem
        exact hremnames n.name ((ih2 n.name).mp hmem) rfl
      · intro nm
        rw [hnames_eq]
        constructor
        · intro hmem
          rcases List.mem_cons.mp hmem with hmem | hmem
          · exact hmem ▸ List.mem_cons_self _ _
          · have h1 := (ih2 nm).mp hmem
            have hsub : (rest.dropWhile (fun m => m.name = n.name)).map (·.name)
                ⊆ rest.map (·.name) :=
              (List.Sublist.map (fun x : Node => x.name)
                (List.dropWhile_sublist (fun m : Node => decide (m.name = n.name)))).subset
            exact List.mem_cons_of_mem _ (hsub h1)
        · intro hmem
          rcases List.mem_cons.mp hmem with hmem | hmem
          · exact hmem ▸ List.mem_cons_self _ _
          · rcases List.mem_map.mp hmem with ⟨m, hm, hmn⟩
            have hm' : m ∈ rest.takeWhile (fun m : Node => decide (m.name = n.name))
                ++ rest.dropWhile (fun m : Node => decide (m.name = n.name)) := by
              rw [List.takeWhile_append_dropWhile]
              exact hm
            rcases List.mem_append.mp hm' with hm' | hm'
            · have : m.name = n.name := by simpa using List.mem_takeWhile_imp hm'
              exact this ▸ hmn ▸ List.mem_cons_self _ _
            · exact List.mem_cons_of_mem _
                ((ih2 nm).mpr (hmn ▸ List.mem_map_of_mem (·.name) hm'))
      · intro m hm
        rw [hme] at hm
        rcases List.mem_cons.mp hm with hm | hm
        · subst hm
          show mergeGroup ocC ocM n.name (n :: rest.takeWhile (fun m => m.name = n.name))
            = mergeGroup ocC ocM n.name ((n :: rest).filter (fun rec => rec.name = n.name))
          rw [hgroupfilter]
        · have hmn : m.name ≠ n.name := by
            refine hremnames m.name ?_
            exact (ih2 m.name).mp (List.mem_map_of_mem (·.name) hm)
          calc m = mergeGroup ocC ocM m.name
                ((rest.dropWhile (fun m => m.name = n.name)).filter
                  (fun rec => rec.name = m.name)) := ih3 m hm
            _ = mergeGroup ocC ocM m.name
                ((n :: rest).filter (fun rec => rec.name = m.name)) := by
                rw [hfilter_other m.name hmn]

instance : IsTotal Node (fun a b : Node => a.name ≤ b.name) :=
  ⟨fun a b => le_total a.name b.name⟩

instance : IsTrans Node (fun a b : Node => a.name ≤ b.name) :=
  ⟨fun _ _ _ h1 h2 => le_trans h1 h2⟩

/-- Membership in the per-name group taken from the name-sorted record list
is membership in the original record list with that name. -/
theorem mem_sorted_group (ns : List Node) (nm : String) (rec : Node) :
    rec ∈ (sortNodesByName ns).filter (fun r => r.name = nm)
      ↔ rec ∈ ns ∧ rec.name = nm := by
  constructor
  · intro h
    have h' := ((List.perm_insertionSort (fun a b : Node => a.name ≤ b.name) ns).filter
      (fun r : Node => decide (r.name = nm))).mem_iff.mp h
    simpa using List.mem_filter.mp h'
  · intro h
    exact ((List.perm_insertionSort (fun a b : Node => a.name ≤ b.name) ns).filter
      (fun r : Node => decide (r.name = nm))).mem_iff.mpr
        (List.mem_filter.mpr ⟨h.1, by simpa using h.2⟩)

/-- A field extracted over the per-name group from the sorted record list is
a permutation of the same extraction over the original list's group. -/
theorem sorted_group_map_perm (ns : List Node) (nm : String) (f : Node → Nat) :
    List.Perm (((sortNodesByName ns).filter (fun r => r.name = nm)).map f)
      ((ns.filter (fun r => r.name = nm)).map f) :=
  ((List.perm_insertionSort (fun a b : Node => a.name ≤ b.name) ns).filter
    (fun r : Node => decide (r.name = nm))).map f

/-- C8 — confirmed: for every list of per-backend node records, the
collector's merge (sort by name, then fold runs of equal names) produces one
output node per distinct input name; each output node's `runtimes` is the
duplicate-free union of the runtimes reported under that name, its
`storage_pools` is the union of the reported pools by pool name, its
`cpu_total` (resp. `memory_total`) is the CPU (resp. memory) overcommit
function applied to the minimum positive value reported under that name (0
if every report is 0), and its `storage_total` and `storage_used` are the
sums of `total` and `used` over its (distinct) merged pools. -/
theorem collector_merge (ocC ocM : Nat → Nat) (ns : List Node) :
    ((collectorMerge ocC ocM ns).map (·.name)).Nodup
    ∧ (∀ nm, nm ∈ (collectorMerge ocC ocM ns).map (·.name) ↔ nm ∈ ns.map (·.name))
    ∧ ∀ m ∈ collectorMerge ocC ocM ns,
        m.runtimes.Nodup
        ∧ (∀ r, r ∈ m.runtimes ↔ ∃ rec ∈ ns, rec.name = m.name ∧ r ∈ rec.runtimes)
        ∧ (m.storage_pools.map (·.name)).Nodup
        ∧ (∀ p ∈ m.storage_pools, ∃ rec ∈ ns, rec.name = m.name ∧ p ∈ rec.storage_pools)
        ∧ (∀ pn, (∃ p ∈ m.storage_pools, p.name = pn)
            ↔ ∃ rec ∈ ns, rec.name = m.name ∧ ∃ p ∈ rec.storage_pools, p.name = pn)
        ∧ (∃ v, m.cpu_total = ocC v
            ∧ ((v = 0
                ∧ ∀ x ∈ (ns.filter (fun rec => rec.name = m.name)).map (·.cpu_total), x = 0)
              ∨ (v ∈ (ns.filter (fun rec => rec.name = m.name)).map (·.cpu_total) ∧ 0 < v
                ∧ ∀ x ∈ (ns.filter (fun rec => rec.name = m.name)).map (·.cpu_total),
                    0 < x → v ≤ x)))
        ∧ (∃ v, m.memory_total = ocM v
            ∧ ((v = 0
                ∧ ∀ x ∈ (ns.filter (fun rec => rec.name = m.name)).map (·.memory_total), x = 0)
              ∨ (v ∈ (ns.filter (fun rec => rec.name = m.name)).map (·.memory_total) ∧ 0 < v
                ∧ ∀ x ∈ (ns.filter (fun rec => rec.name = m.name)).map (·.memory_total),
                    0 < x → v ≤ x)))
        ∧ m.storage_total = (m.storage_pools.map (·.total)).sum
        ∧ m.storage_used = (m.storage_pools.map (·.used)).sum := by
  have hsorted : (sortNodesByName ns).Pairwise (fun a b : Node => a.name ≤ b.name) :=
    List.sorted_insertionSort (fun a b : Node => a.name ≤ b.name) ns
  obtain ⟨h1, h2, h3⟩ := mergeNodes_spec ocC ocM (sortNodesByName ns).length
    (sortNodesByName ns) le_rfl hsorted
  refine ⟨h1, ?_, ?_⟩
  · intro nm
    exact (h2 nm).trans
      ((List.perm_insertionSort (fun a b : Node => a.name ≤ b.name) ns).map
        (fun x : Node => x.name)).mem_iff
  · intro m hm
    have hm_eq := h3 m hm
    obtain ⟨g1, g2, g3, g4, g5, g6, g7, g8, g9, g10⟩ :=
      mergeGroup_spec ocC ocM m.name
        ((sortNodesByName ns).filter (fun rec => rec.name = m.name))
    have hrt := congrArg Node.runtimes hm_eq
    have hsp := congrArg Node.storage_pools hm_eq
    refine ⟨?_, ?_, ?_, ?_, ?_, ?_, ?_, ?_, ?_⟩
    · rw [hrt]; exact g2
    · intro r
      rw [hrt, g3 r]
      constructor
      · rintro ⟨rec, hrec, hr⟩
        obtain ⟨hin, hname⟩ := (mem_sorted_group ns m.name rec).mp hrec
        exact ⟨rec, hin, hname, hr⟩
      · rintro ⟨rec, hin, hname, hr⟩
        exact ⟨rec, (mem_sorted_group ns m.name rec).mpr ⟨hin, hname⟩, hr⟩
    · rw [hsp]; exact g4
    · intro p hp
      rw [hsp] at hp
      obtain ⟨rec, hrec, hpr⟩ := g5 p hp
      obtain ⟨hin, hname⟩ := (mem_sorted_group ns m.name rec).mp hrec
      exact ⟨rec, hin, hname, hpr⟩
    · intro pn
      rw [hsp, g6 pn]
      constructor
      · rintro ⟨rec, hrec, hex⟩
        obtain ⟨hin, hname⟩ := (mem_sorted_group ns m.name rec).mp hrec
        exact ⟨rec, hin, hname, hex⟩
      · rintro ⟨rec, hin, hname, hex⟩
        exact ⟨rec, (mem_sorted_group ns m.name rec).mpr ⟨hin, hname⟩, hex⟩
    · obtain ⟨v, hv, hchar⟩ := g7
      have hmp := sorted_group_map_perm ns m.name (·.cpu_total)
      refine ⟨v, by rw [congrArg Node.cpu_total hm_eq]; exact hv, ?_⟩
      rcases hchar with ⟨h0, hall⟩ | ⟨hmem, hpos, hbound⟩
      · exact .inl ⟨h0, fun x hx => hall x (hmp.mem_iff.mpr hx)⟩
      · exact .inr ⟨hmp.mem_iff.mp hmem, hpos,
          fun x hx hxp => hbound x (hmp.mem_iff.mpr hx) hxp⟩
    · obtain ⟨v, hv, hchar⟩ := g8
      have hmp := sorted_group_map_perm ns m.name (·.memory_total)
      refine ⟨v, by rw [congrArg Node.memory_total hm_eq]; exact hv, ?_⟩
      rcases hchar with ⟨h0, hall⟩ | ⟨hmem, hpos, hbound⟩
      · exact .inl ⟨h0, fun x hx => hall x (hmp.mem_iff.mpr hx)⟩
      · exact .inr ⟨hmp.mem_iff.mp hmem, hpos,
          fun x hx hxp => hbound x (hmp.mem_iff.mpr hx) hxp⟩
    · rw [congrArg Node.storage_total hm_eq, hsp]; exact g9
    · rw [congrArg Node.storage_used hm_eq, hsp]; exact g10

end TiSpace
